import Mathlib

/-!
Verification development for the renderkit configuration renderer.

The Python sources under `src/renderkit/` (graph.py, processor.py, utils.py,
cli.py, config.py, tracker.py) are shallowly embedded below.  Python strings
are Lean `String`s and all string primitives used by the code
(`str.startswith`, slicing, `in`, `split('.')`, `lstrip('/')`) are modelled
as explicit functions over the character list so that they can be reasoned
about and evaluated.  Python `dict`s are insertion-ordered association
lists.  Python `set` iteration order is not deterministic across processes;
wherever the code iterates a set and the iteration order is observable
(the `relevant_keys` set in `DependencyGraph.get_execution_plan`), the
embedding takes the enumeration order as an explicit list parameter.
Filesystem and subprocess effects of `process_value` are mediated by an
explicit `World` oracle and logged as an effect trace.
-/

/-! ### String primitives (models of the Python string operations) -/

/-- Model of Python `pre + rest == v` prefix test (`str.startswith`). -/
def hasPre (pre v : String) : Bool := pre.data.isPrefixOf v.data

/-- Model of Python `str.endswith`. -/
def hasSuf (suf v : String) : Bool := suf.data.isSuffixOf v.data

/-- Auxiliary for `containsSub`: does `pat` occur inside `l`? -/
def listHasInfix (pat : List Char) : List Char → Bool
  | [] => pat.isEmpty
  | c :: rest => pat.isPrefixOf (c :: rest) || listHasInfix pat rest

/-- Model of Python `pat in v` (substring containment). -/
def containsSub (v pat : String) : Bool := listHasInfix pat.data v.data

/-- Model of Python slicing `v[n:]`. -/
def sdrop (v : String) (n : Nat) : String := ⟨v.data.drop n⟩

/-- Model of Python `v.lstrip('/')`. -/
def stripSlashes (v : String) : String := ⟨v.data.dropWhile (· == '/')⟩

/-- Auxiliary for `splitDots`: split a character list at every `sep`. -/
def splitCharAux (sep : Char) : List Char → List Char → List (List Char)
  | [], acc => [acc.reverse]
  | c :: rest, acc =>
    if c == sep then acc.reverse :: splitCharAux sep rest []
    else splitCharAux sep rest (c :: acc)

/-- Model of Python `key_path.split('.')` as used by `set_nested_key`. -/
def splitDots (s : String) : List String :=
  (splitCharAux '.' s.data []).map (fun l => ⟨l⟩)

/-- Model of `".".join(segs)` (inverse of `splitDots` on dot-free segments). -/
def joinDots (segs : List String) : String := String.intercalate "." segs

/-! ### Document values

A raw document is a nested mapping of string keys to scalars.  A string
scalar is kept in parsed form: the `marked` flag records a leading `$`
dynamic marker and `pieces` is the Jinja2 parse of the marker-stripped
source (literal text interleaved with `\x7b\x7b ident.attr... \x7d\x7d`
variable references).  `srcOf` recovers the marker-stripped source text,
so the full Python string behind `Val.str marked pieces` is
`(if marked then "$" else "") ++ srcOf pieces`. -/

/-- One element of a parsed Jinja2 template: literal text or a variable
reference `ident.attr1.attr2...`. -/
inductive Piece where
  | lit (s : String)
  | ref (ident : String) (attrs : List String)
deriving DecidableEq, Repr

mutual
/-- A raw document value: marked/unmarked string (in parsed template form),
non-string scalar, or nested mapping. -/
inductive Val where
  | str (marked : Bool) (pieces : List Piece)
  | num (n : Int)
  | dict (entries : VEntries)
deriving DecidableEq

/-- Entries of a nested mapping in a raw document, in insertion order. -/
inductive VEntries where
  | nil
  | cons (k : String) (v : Val) (rest : VEntries)
deriving DecidableEq
end

/-- Source text of one template piece. -/
def srcOfPiece : Piece → String
  | .lit s => s
  | .ref ident attrs => "\x7b\x7b " ++ joinDots (ident :: attrs) ++ " \x7d\x7d"

/-- Source text of a parsed template (marker-stripped). -/
def srcOf (ps : List Piece) : String := String.join (ps.map srcOfPiece)

/-- Free identifiers of a parsed template: model of
`jinja2.meta.find_undeclared_variables` on the parsed source. -/
def identsOf (ps : List Piece) : List String :=
  (ps.filterMap fun p => match p with | .lit _ => none | .ref ident _ => some ident).dedup

/-- Plain runtime values held by the execution context: the Python value a
raw document value denotes at run time (strings are plain text). -/
inductive PVal where
  | s (v : String)
  | n (n : Int)
  | dict (entries : List (String × PVal))
deriving Repr

/-- Full Python string text of a raw string value. -/
def rawText (marked : Bool) (pieces : List Piece) : String :=
  (if marked then "$" else "") ++ srcOf pieces

mutual
/-- Runtime value of a raw document value. -/
def pvalOfVal : Val → PVal
  | .str marked pieces => .s (rawText marked pieces)
  | .num n => .n n
  | .dict es => .dict (ctxOfDoc es)

/-- Runtime entries of a raw document: the initial execution context. -/
def ctxOfDoc : VEntries → List (String × PVal)
  | .nil => []
  | .cons k v rest => (k, pvalOfVal v) :: ctxOfDoc rest
end

/-! ### Graph builder (`graph.py`) -/

mutual
/-- Model of `DependencyGraph._flatten_dict`: flatten a nested document into
`(key_path, value, namespace)` triples.  The namespace of a top-level entry
is its own key; deeper entries inherit the top-level ancestor key. -/
def flattenOne (k : String) (v : Val) (parent ns : String) : List (String × Val × String) :=
  let newKey := if parent == "" then k else parent ++ "." ++ k
  let currentNs := if parent == "" then k else ns
  match v with
  | .dict es => flattenEntries es newKey currentNs
  | other => [(newKey, other, currentNs)]

def flattenEntries (es : VEntries) (parent ns : String) : List (String × Val × String) :=
  match es with
  | .nil => []
  | .cons k v rest => flattenOne k v parent ns ++ flattenEntries rest parent ns
end

/-- Model of the `Node` dataclass of `graph.py`.  The Python field
`namespace` is a Lean keyword and is called `nspace` here. -/
structure Node where
  key_path : String
  raw_value : Val
  dependencies : List String
  nspace : String
deriving DecidableEq

/-- Resolution of one free identifier against the set of key paths, as in
`DependencyGraph.build`: (1) same-namespace sibling, (2) exact key path,
(3) all key paths with the identifier as a dotted namespace, first matching
category wins, category (3) keeps every match. -/
def resolveVar (allKeys : List String) (nspace var : String) : List String :=
  if nspace != "" && allKeys.contains (nspace ++ "." ++ var) then
    [nspace ++ "." ++ var]
  else if allKeys.contains var then [var]
  else allKeys.filter (fun k => hasPre (var ++ ".") k)

/-- Dependencies of one node, as accumulated by the identifier loop of
`DependencyGraph.build`.  Non-string raw values contribute nothing. -/
def depsOfVal (allKeys : List String) (nspace : String) : Val → List String
  | .str _ pieces =>
    (identsOf pieces).foldl (fun acc var => acc ++ resolveVar allKeys nspace var) []
  | _ => []

/-- Model of `DependencyGraph.build`: flatten the document into nodes, then
resolve every node's dependencies against the full key set. -/
def buildGraph (doc : VEntries) : List Node :=
  let flat := flattenEntries doc "" ""
  let allKeys := flat.map (·.1)
  flat.map fun item => ⟨item.1, item.2.1, depsOfVal allKeys item.2.2 item.2.1, item.2.2⟩

/-- All key paths of a graph (`self.nodes.keys()`). -/
def nodeKeys (g : List Node) : List String := g.map (·.key_path)

/-- Dependency list of a key path in a graph (empty when absent). -/
def depsOf (g : List Node) (k : String) : List String :=
  match g.find? (fun n => n.key_path == k) with
  | some n => n.dependencies
  | none => []

/-! ### Required subgraph (`DependencyGraph._get_required_subgraph`) -/

/-- Number of keys of `allKeys` not yet visited; termination measure of the
reachability walk. -/
def unvisitedCount (allKeys visited : List String) : Nat :=
  (allKeys.filter (fun k => !visited.contains k)).length

/-- Largest dependency-list length in a graph. -/
def maxDeps (g : List Node) : Nat := (g.map (·.dependencies.length)).foldr max 0

theorem length_filter_le_of_imp (p q : String → Bool)
    (h : ∀ a, q a = true → p a = true) (l : List String) :
    (l.filter q).length ≤ (l.filter p).length := by
  induction l with
  | nil => simp
  | cons a t ih =>
    by_cases hq : q a = true
    · simp [List.filter, hq, h a hq]
      omega
    · simp only [Bool.not_eq_true] at hq
      cases hp : p a <;> simp [List.filter, hq, hp] <;> omega

theorem unvisitedCount_append_le (allKeys visited : List String) (c : String) :
    unvisitedCount allKeys (visited ++ [c]) ≤ unvisitedCount allKeys visited := by
  apply length_filter_le_of_imp
  intro a ha
  simp at ha ⊢
  exact ha.1

theorem unvisitedCount_append_lt (allKeys : List String) (visited : List String)
    (c : String) (hc : c ∈ allKeys) (hv : visited.contains c = false) :
    unvisitedCount allKeys (visited ++ [c]) < unvisitedCount allKeys visited := by
  unfold unvisitedCount
  induction allKeys with
  | nil => simp at hc
  | cons a t ih =>
    by_cases hac : a = c
    · subst hac
      rw [List.filter_cons_of_neg (by simp), List.filter_cons_of_pos (by
        simp only [Bool.not_eq_true']
        exact hv)]
      have := unvisitedCount_append_le t visited a
      unfold unvisitedCount at this
      simp only [List.length_cons]
      omega
    · have hct : c ∈ t := by
        cases hc with
        | head => exact absurd rfl hac
        | tail _ h => exact h
      have heq : (!(visited ++ [c]).contains a) = (!visited.contains a) := by
        simp [hac]
      have hlt := ih hct
      by_cases h : (!visited.contains a) = true
      · rw [List.filter_cons_of_pos (by rw [heq]; exact h),
          @List.filter_cons_of_pos _ (fun k => !visited.contains k) a t h]
        simp only [List.length_cons]
        omega
      · rw [List.filter_cons_of_neg (by rw [heq]; exact h),
          @List.filter_cons_of_neg _ (fun k => !visited.contains k) a t h]
        exact hlt

theorem mem_nodeKeys_of_find (g : List Node) (k : String) (n : Node)
    (h : g.find? (fun m => m.key_path == k) = some n) : k ∈ nodeKeys g := by
  have h1 := List.find?_some h
  have h2 := List.mem_of_find?_eq_some h
  simp only [beq_iff_eq] at h1
  subst h1
  exact List.mem_map_of_mem _ h2

theorem depslen_le_maxDeps (g : List Node) (n : Node) (hn : n ∈ g) :
    n.dependencies.length ≤ maxDeps g := by
  unfold maxDeps
  have : n.dependencies.length ∈ g.map (·.dependencies.length) :=
    List.mem_map_of_mem _ hn
  exact List.le_max_of_le this le_rfl

/-- Fuel-indexed worklist loop of `_get_required_subgraph`: pop a key, mark
it visited, push its not-yet-visited dependencies.  The Python stack pops
from the end; only the resulting set is observable, so the pop end is
immaterial and the embedding pops from the front.  One unit of fuel is
consumed per iteration; `dfsFuel` always supplies enough. -/
def dfsLoopF (g : List Node) : Nat → List String → List String → List String
  | 0, visited, _ => visited
  | fuel + 1, visited, stack =>
    match stack with
    | [] => visited
    | current :: rest =>
      if visited.contains current then dfsLoopF g fuel visited rest
      else
        match g.find? (fun n => n.key_path == current) with
        | some n =>
          dfsLoopF g fuel (visited ++ [current])
            (rest ++ n.dependencies.filter (fun d => !visited.contains d))
        | none => dfsLoopF g fuel (visited ++ [current]) rest

/-- Decreasing measure of the worklist loop; bounds its iteration count. -/
def dfsMeasure (g : List Node) (visited stack : List String) : Nat :=
  unvisitedCount (nodeKeys g) visited * (maxDeps g + 1) + stack.length

/-- The worklist loop with enough fuel to run to completion. -/
def dfsLoop (g : List Node) (visited stack : List String) : List String :=
  dfsLoopF g (dfsMeasure g visited stack + 1) visited stack

/-- Seed frontier of `_get_required_subgraph`: graph keys matching some
requested candidate exactly, as a dotted prefix, or as a dotted suffix. -/
def seedKeys (g : List Node) (reqs : List String) : List String :=
  (nodeKeys g).filter (fun k => reqs.any (fun req =>
    k == req || hasPre (req ++ ".") k || hasSuf ("." ++ req) k))

/-- Model of `DependencyGraph._get_required_subgraph`: with no target keys
(or an empty set) every graph key is relevant; otherwise walk the stored
dependency edges from the seed frontier to fixpoint. -/
def requiredSubgraph (g : List Node) (target : Option (List String)) : List String :=
  match target with
  | none => nodeKeys g
  | some reqs =>
    if reqs.isEmpty then nodeKeys g
    else dfsLoop g [] (seedKeys g reqs)

/-! ### Plan compiler (`DependencyGraph.get_execution_plan`)

`graphlib.TopologicalSorter.static_order` is modelled by a generation-wise
Kahn walk over `(key, restricted-dependency-list)` items: each round emits
every remaining item whose dependencies have all been emitted.  On a round
with no ready item the remaining items form a dependency cycle; one is
extracted by chasing pending dependencies until a key repeats, matching the
shape of the cycle `graphlib` reports (first member repeated at the end).
The insertion order of the items — in the source, the iteration order of
the Python set `relevant_keys` — is the `ord` parameter. -/

/-- Is every dependency of the item already emitted? -/
def readyItem (emitted : List String) (it : String × List String) : Bool :=
  it.2.all (fun d => emitted.contains d)

/-- First dependency not yet emitted. -/
def firstPendingDep (emitted : List String) (ds : List String) : Option String :=
  ds.find? (fun d => !emitted.contains d)

/-- Dependency list stored for a key among the sorter's items. -/
def lookupDeps (remaining : List (String × List String)) (k : String) : List String :=
  match remaining.find? (fun it => it.1 == k) with
  | some it => it.2
  | none => []

/-- Chase pending dependencies from `cur`, collecting the path walked, until
a key repeats; the cycle is the walked path from the first occurrence of
the repeated key, with that key appended again at the end. -/
def chase (nextF : String → Option String) : Nat → List String → String → List String
  | 0, _, _ => []
  | fuel + 1, path, cur =>
    if path.contains cur then path.dropWhile (fun x => x != cur) ++ [cur]
    else
      match nextF cur with
      | none => []
      | some d => chase nextF fuel (path ++ [cur]) d

/-- Extract a dependency cycle from a stuck sorter state. -/
def extractCycle (emitted : List String) (remaining : List (String × List String)) :
    List String :=
  match remaining with
  | [] => []
  | it :: _ =>
    chase (fun k => firstPendingDep emitted (lookupDeps remaining k))
      (remaining.length + 1) [] it.1

theorem length_filter_partition (p : α → Bool) (l : List α) :
    (l.filter p).length + (l.filter (fun a => !p a)).length = l.length := by
  induction l with
  | nil => simp
  | cons a t ih =>
    cases h : p a <;> simp [List.filter_cons, h] <;> omega

/-- Fuel-indexed Kahn walk of `static_order`: emit all ready items, recurse
on the rest; report a cycle when no item is ready.  One unit of fuel is
consumed per round; `remaining.length + 1` always suffices since every
round with a ready item shrinks `remaining`. -/
def kahnRunF : Nat → List String → List (String × List String) →
    Except (List String) (List String)
  | 0, _, _ => .error []
  | fuel + 1, emitted, remaining =>
    if remaining.isEmpty then .ok []
    else
      let ready := remaining.filter (readyItem emitted)
      if ready.isEmpty then .error (extractCycle emitted remaining)
      else
        let rest := remaining.filter (fun it => !readyItem emitted it)
        match kahnRunF fuel (emitted ++ ready.map (·.1)) rest with
        | .ok tail => .ok (ready.map (·.1) ++ tail)
        | .error c => .error c

/-- The Kahn walk with enough fuel to run to completion. -/
def kahnRun (emitted : List String) (remaining : List (String × List String)) :
    Except (List String) (List String) :=
  kahnRunF (remaining.length + 1) emitted remaining

/-- Model of `graphlib.TopologicalSorter(...).static_order()` on the items
inserted by the `sorter.add` loop of `get_execution_plan`. -/
def staticOrder (items : List (String × List String)) :
    Except (List String) (List String) :=
  kahnRun [] items

/-- Items handed to the sorter by `get_execution_plan`: one per relevant
key in enumeration order `ord`, dependencies restricted to the relevant
set. -/
def restrictedItems (g : List Node) (relevant : List String) (ord : List String) :
    List (String × List String) :=
  ord.filterMap fun k =>
    (g.find? (fun n => n.key_path == k)).map fun n =>
      (k, n.dependencies.filter (fun d => relevant.contains d))

/-- Model of `DependencyGraph.get_execution_plan`.  `ord` is the iteration
order of the Python set `relevant_keys` (an arbitrary enumeration of the
relevant set; Python fixes one per process).  A detected cycle is turned
into the single `typer.BadParameter` error carrying the joined member
paths; otherwise the sorted keys are mapped back to their nodes. -/
def get_execution_plan (g : List Node) (target : Option (List String))
    (ord : List String) : Except String (List Node) :=
  let relevant := requiredSubgraph g target
  match staticOrder (restrictedItems g relevant ord) with
  | .error c => .error ("检测到循环依赖: " ++ String.intercalate " -> " c)
  | .ok sortedKeys => .ok (sortedKeys.filterMap fun k => g.find? (fun n => n.key_path == k))

/-! ### Directive evaluator (`processor.process_value`)

Filesystem and subprocess behaviour is mediated by a `World` oracle; every
filesystem access and shell execution the function performs is logged in
the returned effect trace.  `pathlib` paths are abstract path strings:
`/`-joining is string concatenation with a separator and `Path.resolve` is
the identity on these abstract paths (no symlink or `..` normalisation is
modelled).  `urlparse`+`unquote` on a `file://` URI reassembles
`netloc + path`, i.e. the text after `file://` (percent-decoding and the
win32 drive quirk are not modelled), and `sys.platform` is not `win32`. -/

/-- Outcome of probing/reading a file path (`Path.is_file` + `read_text`). -/
inductive FileResult where
  | notFile
  | content (s : String)
  | err (msg : String)

/-- Outcome of `subprocess.run(..., shell=True, check=True)`: captured
stdout, a `CalledProcessError`, or another exception. -/
inductive CmdResult where
  | ok (out : String)
  | fail (stderr : String)
  | exn (msg : String)

/-- Oracle for the process environment: file contents, shell results, the
current working directory and directory validity. -/
structure World where
  fileRead : String → FileResult
  runShell : String → Option String → CmdResult
  cwd : String
  isDir : String → Bool

/-- One observable side effect of `process_value`. -/
inductive Eff where
  | readF (path : String)
  | runC (cmd : String) (cwd : Option String)
deriving DecidableEq, Repr

/-- Model of `Path` joining with `/`. -/
def joinPath (a b : String) : String := a ++ "/" ++ b

/-- Read a file and convert every failure to a placeholder string, as the
`if file_path_to_read:` block of `process_value` does. -/
def readAsText (w : World) (p : String) : PVal × List Eff :=
  match w.fileRead p with
  | .content s => (.s s, [.readF p])
  | .err m => (.s m, [.readF p])
  | .notFile => (.s ("<Error: File not found " ++ p ++ ">"), [.readF p])

/-- Model of `processor.process_value`.  Non-string values pass through;
a string still containing a template delimiter is returned unchanged with
no effect; otherwise the `file://`, `@` and `!` forms are evaluated with
every failure converted to a placeholder string. -/
def process_value (w : World) (key : String) (value : PVal)
    (repoRoot : Option String) : PVal × List Eff :=
  match value with
  | .s v =>
    if containsSub v "\x7b\x7b" || containsSub v "\x7d\x7d" then (.s v, [])
    else
      let fileFromUri : Option String :=
        if hasPre "file://" v then
          let pathStr := sdrop v 7
          some (if hasPre "/" pathStr then pathStr else joinPath w.cwd pathStr)
        else none
      if hasPre "@" v ∧ repoRoot = none then (.s "<Error: repo_root undefined>", [])
      else
        let fileToRead : Option String :=
          match repoRoot, hasPre "@" v with
          | some root, true => some (joinPath root (stripSlashes (sdrop v 1)))
          | _, _ => fileFromUri
        match fileToRead with
        | some p => readAsText w p
        | none =>
          if hasPre "!" v then
            let command := sdrop v 1
            let execCwd : Option String :=
              match repoRoot with
              | some root => if w.isDir root then some root else none
              | none => none
            match w.runShell command execCwd with
            | .ok out => (.s out.trim, [.runC command execCwd])
            | .fail _ => (.s "<Error: Command failed>", [.runC command execCwd])
            | .exn m => (.s m, [.runC command execCwd])
          else (.s v, [])
  | other => (other, [])

/-! ### Rendering (`PlanExecutor` stage 1, via Jinja2)

A scope maps names to runtime values.  Looking a name up yields either a
value or Jinja2's `Undefined`; printing an undefined gives `""`, attribute
access on a present non-mapping or a missing key gives undefined, and
attribute access **on** an undefined raises `UndefinedError` (the default
`jinja2.Undefined`), which `PlanExecutor.execute` catches by falling back
to the marker-stripped source. -/

/-- Python `str()` of a nested value (`repr` for dict members). -/
def pyRepr : PVal → String
  | .s v => "\x27" ++ v ++ "\x27"
  | .n n => toString n
  | .dict es => "\x7b" ++ String.intercalate ", "
      (es.attach.map fun kv => "\x27" ++ kv.1.1 ++ "\x27: " ++ pyRepr kv.1.2) ++ "\x7d"
decreasing_by
  rcases kv with ⟨⟨k, v⟩, hm⟩
  have h := List.sizeOf_lt_of_mem hm
  simp at h ⊢
  omega

/-- Python `str()` of a runtime value. -/
def pyStr : PVal → String
  | .s v => v
  | .n n => toString n
  | .dict es => pyRepr (.dict es)

/-- A Jinja2 runtime value: a real value or `Undefined`. -/
inductive JVal where
  | val (v : PVal)
  | undefined

/-- Association-list lookup on a context. -/
def lookupCtx (es : List (String × PVal)) (k : String) : Option PVal :=
  (es.find? (fun kv => kv.1 == k)).map (·.2)

/-- Jinja2 attribute access `x.a`: mapping lookup with undefined fallback;
attribute access on an undefined raises. -/
def jattr : JVal → String → Except Unit JVal
  | .undefined, _ => .error ()
  | .val (.dict es), a =>
    .ok (match lookupCtx es a with
         | some v => .val v
         | none => .undefined)
  | .val _, _ => .ok .undefined

/-- Printing a Jinja2 value: undefined prints as the empty string. -/
def jstr : JVal → String
  | .undefined => ""
  | .val v => pyStr v

/-- Evaluate one variable reference `ident.attr...` against a scope. -/
def renderRef (scope : List (String × PVal)) (ident : String) (attrs : List String) :
    Except Unit String := do
  let base : JVal := match lookupCtx scope ident with
    | some v => .val v
    | none => .undefined
  let r ← attrs.foldlM jattr base
  pure (jstr r)

/-- Render a parsed template against a scope. -/
def renderPieces (scope : List (String × PVal)) (ps : List Piece) : Except Unit String :=
  ps.foldlM (fun acc p =>
    match p with
    | .lit s => pure (acc ++ s)
    | .ref ident attrs => (renderRef scope ident attrs).map (fun r => acc ++ r)) ""

/-! ### Context writes (`utils.set_nested_key`) and the executor -/

/-- Python `d[k] = v` on an insertion-ordered mapping: replace in place or
append. -/
def setKey (es : List (String × PVal)) (k : String) (v : PVal) : List (String × PVal) :=
  if es.any (fun kv => kv.1 == k) then
    es.map (fun kv => if kv.1 == k then (k, v) else kv)
  else es ++ [(k, v)]

/-- Python `base.update(extra)`. -/
def updateAssoc (base extra : List (String × PVal)) : List (String × PVal) :=
  extra.foldl (fun b kv => setKey b kv.1 kv.2) base

/-- Model of `utils.set_nested_key` on the split key path: walk with
`setdefault(key, {})`, abort without writing when an existing path
component is not a mapping, assign at the last component. -/
def set_nested_key (d : List (String × PVal)) : List String → PVal → List (String × PVal)
  | [], _ => d
  | [k], v => setKey d k v
  | k :: rest, v =>
    match lookupCtx d k with
    | some (.dict sub) => setKey d k (.dict (set_nested_key sub rest v))
    | some _ => d
    | none => setKey d k (.dict (set_nested_key [] rest v))

/-- Read a context at a split key path (mapping traversal). -/
def getNested (es : List (String × PVal)) : List String → Option PVal
  | [] => none
  | [k] => lookupCtx es k
  | k :: rest =>
    match lookupCtx es k with
    | some (.dict sub) => getNested sub rest
    | _ => none

/-- Render scope of one node: the current context shadowed by the node's
namespace entries when that namespace is a mapping in the context
(`render_ctx = self.final_context.copy(); render_ctx.update(ns_data)`). -/
def renderScope (ctx : List (String × PVal)) (nspace : String) : List (String × PVal) :=
  if nspace != "" then
    match lookupCtx ctx nspace with
    | some (.dict es) => updateAssoc ctx es
    | _ => ctx
  else ctx

/-- Stage 1 of `PlanExecutor.execute` on one node: render a `$`-marked
string against the injected scope, falling back to the marker-stripped
source on a render error; other values pass through.  (A node's raw value
is a document leaf, so the mapping arm is unreachable for plans built from
a document.) -/
def renderedValue (ctx : List (String × PVal)) (node : Node) : PVal :=
  match node.raw_value with
  | .str true pieces =>
    match renderPieces (renderScope ctx node.nspace) pieces with
    | .ok s => .s s
    | .error _ => .s (srcOf pieces)
  | .str false pieces => .s (srcOf pieces)
  | .num n => .n n
  | .dict es => pvalOfVal (.dict es)

/-- Stages 1–2 of `PlanExecutor.execute` on one node: render, then hand the
result to the directive evaluator. -/
def nodeValue (w : World) (repoRoot : Option String) (ctx : List (String × PVal))
    (node : Node) : PVal :=
  (process_value w node.key_path (renderedValue ctx node) repoRoot).1

/-- One full step of `PlanExecutor.execute`: compute the node's value and
write it at the node's key path. -/
def execStep (w : World) (repoRoot : Option String) (ctx : List (String × PVal))
    (node : Node) : List (String × PVal) :=
  set_nested_key ctx (splitDots node.key_path) (nodeValue w repoRoot ctx node)

/-- Model of `PlanExecutor.execute`: walk the plan in order over one
accumulating context initialised from the raw document. -/
def execute (w : World) (repoRoot : Option String) (plan : List Node)
    (initial : List (String × PVal)) : List (String × PVal) :=
  plan.foldl (execStep w repoRoot) initial

/-- The full pipeline on a raw document: build the graph, compile the plan
for the requested target keys (with `ord` the enumeration order of the
relevant-key set), execute it over the document context. -/
def pipelineCtx (w : World) (repoRoot : Option String) (doc : VEntries)
    (target : Option (List String)) (ord : List String) :
    Except String (List (String × PVal)) :=
  match get_execution_plan (buildGraph doc) target ord with
  | .error e => .error e
  | .ok plan => .ok (execute w repoRoot plan (ctxOfDoc doc))

/-! ### CLI parent pruning (`cli.render`, step 3.5) -/

/-- Model of the pruning loop of `cli.render`: keep an accessed path unless
it is a dotted ancestor of another accessed path. -/
def requiredVarsOf (rawVars : List String) : List String :=
  rawVars.filter (fun v => !rawVars.any (fun other => hasPre (v ++ ".") other))

/-! ### Module-level imports (`cli.py` / `config.py` / `processor.py`)

Python resolves a `from M import a, b` statement by looking each name up
in module `M`'s namespace after executing `M`'s top level, raising
`ImportError` at the first missing name.  The top-level names each module
defines, and the names each `from ... import` requests, are transcribed
from the sources. -/

/-- Top-level names defined by `processor.py`. -/
def processorDefs : List String := ["process_value", "PlanExecutor"]

/-- Top-level names defined by `config.py`. -/
def configDefs : List String :=
  ["CONFIGS_DIR_NAME", "GLOBAL_CONFIG_FILENAME", "load_and_process_configs"]

/-- Names `config.py` imports from `.processor` (config.py line 8). -/
def configImportsFromProcessor : List String := ["process_value", "resolve_dynamic_values"]

/-- Names `cli.py` imports from `.config` (cli.py line 8). -/
def cliImportsFromConfig : List String := ["load_raw_context", "execute_plan"]

/-- Does a `from ... import` statement resolve every requested name? -/
def importsResolve (names defs : List String) : Bool :=
  names.all (fun n => defs.contains n)

/-- Does importing `renderkit.cli` succeed?  Its import of `.config`
executes `config.py`, whose first statements import from `.processor`;
both statements must resolve. -/
def cliImportChainOk : Bool :=
  importsResolve configImportsFromProcessor processorDefs &&
    importsResolve cliImportsFromConfig configDefs

/-! ### Semantic relations used by the claim statements -/

/-- Dependency edge: `b` is a stored dependency of `a`. -/
def depEdge (g : List Node) (a b : String) : Prop := b ∈ depsOf g a

/-- Reachability along stored dependency edges. -/
abbrev Reaches (g : List Node) : String → String → Prop :=
  Relation.ReflTransGen (depEdge g)

/-- Does a graph key match a requested candidate the way the seed loop of
`_get_required_subgraph` matches: exactly, as dotted prefix, or as dotted
suffix? -/
def seedMatch (reqs : List String) (k : String) : Bool :=
  reqs.any (fun req => k == req || hasPre (req ++ ".") k || hasSuf ("." ++ req) k)

/-- A dependency cycle: at least two entries, first entry repeated at the
end, every consecutive pair linked by a dependency edge. -/
def IsDepCycle (deps : String → List String) (c : List String) : Prop :=
  2 ≤ c.length ∧ c.head? = c.getLast? ∧ c.Chain' (fun a b => b ∈ deps a)

instance instDecIsDepCycle (deps : String → List String) (c : List String) :
    Decidable (IsDepCycle deps c) :=
  inferInstanceAs (Decidable (_ ∧ _ ∧ _))

/-- Dependencies of a key restricted to the relevant set, as
`get_execution_plan` restricts them. -/
def restrictedDeps (g : List Node) (relevant : List String) (k : String) : List String :=
  (depsOf g k).filter (fun d => relevant.contains d)

/-- `ord` enumerates the set underlying `sub`: duplicate-free and with the
same members.  This is what the iteration order of a Python set satisfies. -/
def EnumOf (ord sub : List String) : Prop :=
  ord.Nodup ∧ (∀ k ∈ ord, k ∈ sub) ∧ (∀ k ∈ sub, k ∈ ord)

/-- `a` occurs (at some position) strictly before `b` in `l`. -/
def precedes (l : List String) (a b : String) : Prop :=
  ∃ i j : Nat, i < j ∧ l[i]? = some a ∧ l[j]? = some b

/-- Keys of the plan, `none` on a compile error. -/
def planKeysOf (r : Except String (List Node)) : Option (List String) :=
  match r with
  | .ok plan => some (plan.map (·.key_path))
  | .error _ => none

/-- Error message of a plan compilation, `none` on success. -/
def errMsgOf (r : Except String (List Node)) : Option String :=
  match r with
  | .ok _ => none
  | .error e => some e

/-! ### Formalisation of the resolved-before-reference reading of C1

`refPathOf` computes, from the shape of the current context, the key path
a variable reference `ident.attr...` of a node's template actually reads:
the namespace-injected sibling when the node's namespace is a mapping
containing `ident`, else the top-level entry `ident`.  `resolvedWhenRunB`
replays the plan and checks that every such referenced path that lies in
the relevant set already holds its final value when the node runs. -/

/-- Key path (as segments) read by one variable reference of a node. -/
def refPathOf (ctx : List (String × PVal)) (nspace ident : String)
    (attrs : List String) : Option (List String) :=
  let top : Option (List String) :=
    if (lookupCtx ctx ident).isSome then some (ident :: attrs) else none
  if nspace != "" then
    match lookupCtx ctx nspace with
    | some (.dict es) =>
      if (lookupCtx es ident).isSome then some (nspace :: ident :: attrs) else top
    | _ => top
  else top

/-- All key paths the (marked) template of a node reads from the scope. -/
def refTargets (ctx : List (String × PVal)) (node : Node) : List (List String) :=
  match node.raw_value with
  | .str true pieces =>
    pieces.filterMap fun p =>
      match p with
      | .lit _ => none
      | .ref ident attrs => refPathOf ctx node.nspace ident attrs
  | _ => []

/-- Interpretation of C1's guarantee clause: replaying the plan, every key
path a node's template references that lies in the relevant set already
holds its final value when that node runs. -/
def resolvedWhenRun (w : World) (repoRoot : Option String) (relevant : List String)
    (finalCtx : List (String × PVal)) : List (String × PVal) → List Node → Prop
  | _, [] => True
  | ctx, node :: rest =>
    (∀ segs ∈ refTargets ctx node, joinDots segs ∈ relevant →
      getNested ctx segs = getNested finalCtx segs) ∧
    resolvedWhenRun w repoRoot relevant finalCtx (execStep w repoRoot ctx node) rest

/-- Claim C1 as stated, for one document, requirement set and enumeration
order: the compiled plan lists every relevant key exactly once, every
restricted dependency precedes its dependent, and — the guarantee clause —
every key a node's template can reference within the relevant set is fully
resolved before the node runs. -/
def C1Stated (w : World) (repoRoot : Option String) (doc : VEntries)
    (target : Option (List String)) (ord : List String) : Prop :=
  ∀ plan, get_execution_plan (buildGraph doc) target ord = .ok plan →
    let g := buildGraph doc
    let relevant := requiredSubgraph g target
    let keys := plan.map (·.key_path)
    keys.Nodup ∧ (∀ k, k ∈ keys ↔ k ∈ relevant) ∧
    (∀ n ∈ plan, ∀ d ∈ n.dependencies, d ∈ relevant → precedes keys d n.key_path) ∧
    resolvedWhenRun w repoRoot relevant
      (execute w repoRoot plan (ctxOfDoc doc)) (ctxOfDoc doc) plan

/-! ### Heap model of the executor (for the aliasing behaviour)

Python dictionaries are heap objects: `initial_context.copy()` copies only
the top-level mapping and shares every nested mapping object with the
caller.  The heap model makes this explicit: a `Store` maps addresses to
mapping contents, nested mappings are `href` references, and
`set_nested_key` mutates the mapping object reached by the reference
chain.  Values are computed exactly as in the value-level executor, from a
read-out snapshot of the working context. -/

/-- A heap value: scalar or reference to a mapping object. -/
inductive HVal where
  | hs (v : String)
  | hn (n : Int)
  | href (a : Nat)
deriving DecidableEq, Repr

/-- Contents of one mapping object. -/
abbrev HDict := List (String × HVal)

/-- The heap: address → mapping contents. -/
abbrev Store := List (Nat × HDict)

/-- Contents of the mapping object at an address (empty when absent). -/
def lookupStore (st : Store) (a : Nat) : HDict :=
  match st.find? (fun e => e.1 == a) with
  | some e => e.2
  | none => []

/-- Replace the contents of the mapping object at an address. -/
def updateStore (st : Store) (a : Nat) (d : HDict) : Store :=
  st.map (fun e => if e.1 == a then (a, d) else e)

/-- Mapping lookup `es[k]`. -/
def lookupHD (es : HDict) (k : String) : Option HVal :=
  (es.find? (fun kv => kv.1 == k)).map (·.2)

/-- Mapping write `es[k] = v` (replace in place or append). -/
def setHKey (es : HDict) (k : String) (v : HVal) : HDict :=
  if es.any (fun kv => kv.1 == k) then
    es.map (fun kv => if kv.1 == k then (k, v) else kv)
  else es ++ [(k, v)]

mutual
/-- Load one raw value into the heap; nested mappings are allocated before
their parent, so every reference points to a smaller address. -/
def loadVal (v : Val) (st : Store) (next : Nat) : HVal × Store × Nat :=
  match v with
  | .str marked pieces => (.hs (rawText marked pieces), st, next)
  | .num n => (.hn n, st, next)
  | .dict es =>
    let r := loadEntries es st next
    (.href r.2.2, r.2.1 ++ [(r.2.2, r.1)], r.2.2 + 1)

/-- Load raw entries into the heap. -/
def loadEntries (es : VEntries) (st : Store) (next : Nat) : HDict × Store × Nat :=
  match es with
  | .nil => ([], st, next)
  | .cons k v rest =>
    let r1 := loadVal v st next
    let r2 := loadEntries rest r1.2.1 r1.2.2
    ((k, r1.1) :: r2.1, r2.2.1, r2.2.2)
end

/-- Load a raw document: returns (root address, heap, next address). -/
def loadDoc (doc : VEntries) : Nat × Store × Nat :=
  let r := loadEntries doc [] 0
  (r.2.2, r.2.1 ++ [(r.2.2, r.1)], r.2.2 + 1)

/-- Heap model of `utils.set_nested_key`: walk the reference chain with
`setdefault(key, {})` (allocating a fresh empty mapping for a missing
component), abort when an existing component is not a mapping, assign at
the last component — mutating the mapping object reached, wherever it is
shared from. -/
def heapSetNested : Store → Nat → List String → HVal → Nat → Store × Nat
  | st, _, [], _, nx => (st, nx)
  | st, a, [k], v, nx => (updateStore st a (setHKey (lookupStore st a) k v), nx)
  | st, a, k :: rest, v, nx =>
    match lookupHD (lookupStore st a) k with
    | some (.href b) => heapSetNested st b rest v nx
    | some _ => (st, nx)
    | none =>
      let st1 := updateStore st a (setHKey (lookupStore st a) k (.href nx))
      heapSetNested (st1 ++ [(nx, [])]) nx rest v (nx + 1)

/-- Read the heap through a reference chain at a split key path. -/
def heapGetD (st : Store) : Nat → List String → Option HVal
  | _, [] => none
  | a, [k] => lookupHD (lookupStore st a) k
  | a, k :: rest =>
    match lookupHD (lookupStore st a) k with
    | some (.href b) => heapGetD st b rest
    | _ => none

/-- Fuel-indexed read-out of a mapping object into a plain value tree (the
snapshot of the working context the executor computes a node's value
from); ample fuel is supplied by `storeSizeBound`. -/
def readOutEs (st : Store) : Nat → HDict → List (String × PVal)
  | 0, _ => []
  | _ + 1, [] => []
  | fuel + 1, (k, hv) :: rest =>
    (k, match hv with
        | .hs s => PVal.s s
        | .hn n => PVal.n n
        | .href a => PVal.dict (readOutEs st fuel (lookupStore st a))) ::
      readOutEs st fuel rest

/-- Generous fuel bound for `readOutEs`. -/
def storeSizeBound (st : Store) : Nat :=
  st.foldr (fun e acc => acc + e.2.length + 1) 1

/-- Scalar heap value of a computed node value.  (A node's computed value
is a string or a non-string scalar; the mapping arm is unreachable for
plans built from a document, where every node is a leaf.) -/
def hvalOfScalar : PVal → HVal
  | .s v => .hs v
  | .n n => .hn n
  | .dict es => .hs (pyStr (.dict es))

/-- One step of the heap executor: compute the node's value from the
read-out snapshot of the working context, then write it through
`heapSetNested` at the node's key path. -/
def execHeapStep (w : World) (repoRoot : Option String) (workRoot : Nat)
    (st : Store) (nx : Nat) (node : Node) : Store × Nat :=
  let snapshot := readOutEs st (storeSizeBound st) (lookupStore st workRoot)
  let v := nodeValue w repoRoot snapshot node
  heapSetNested st workRoot (splitDots node.key_path) (hvalOfScalar v) nx

/-- Walk of the heap executor over a plan. -/
def execHeapGo (w : World) (repoRoot : Option String) (workRoot : Nat) :
    List Node → Store → Nat → Store × Nat
  | [], st, nx => (st, nx)
  | node :: rest, st, nx =>
    let r := execHeapStep w repoRoot workRoot st nx node
    execHeapGo w repoRoot workRoot rest r.1 r.2

/-- Heap model of `PlanExecutor.execute`: load the document, shallow-copy
the root mapping (`initial_context.copy()`), then execute the plan against
the copy.  Returns (caller's root address, working root address, final
heap). -/
def executeHeap (w : World) (repoRoot : Option String) (plan : List Node)
    (doc : VEntries) : Nat × Nat × Store :=
  let r := loadDoc doc
  let root := r.1
  let st0 := r.2.1
  let workRoot := r.2.2
  let st1 := st0 ++ [(workRoot, lookupStore st0 root)]
  let r2 := execHeapGo w repoRoot workRoot plan st1 (workRoot + 1)
  (root, workRoot, r2.1)

/-- Lookup in raw document entries. -/
def lookupVE : VEntries → String → Option Val
  | .nil, _ => none
  | .cons k v rest, q => if k == q then some v else lookupVE rest q

/-- Does a split key path denote a leaf of the document, reached through
nested mappings?  This is the shape every flattened node key has. -/
def segsFit (doc : VEntries) : List String → Bool
  | [] => false
  | [k] =>
    match lookupVE doc k with
    | some (.dict _) => false
    | some _ => true
    | none => false
  | k :: rest =>
    match lookupVE doc k with
    | some (.dict sub) => segsFit sub rest
    | _ => false

/-- Keys of raw document entries. -/
def keysVE : VEntries → List String
  | .nil => []
  | .cons k _ rest => k :: keysVE rest

mutual
/-- Well-formedness of a raw value: every mapping has duplicate-free keys
(Python dictionaries cannot carry duplicates). -/
def wfVal : Val → Bool
  | .dict es => wfEntries es
  | _ => true

/-- Well-formedness of raw entries. -/
def wfEntries : VEntries → Bool
  | .nil => true
  | .cons k v rest => !(keysVE rest).contains k && wfVal v && wfEntries rest
end

/-! ### Concrete fixtures for witnesses and counterexamples -/

/-- A world with no readable files, failing commands, empty cwd and no
valid directories; documents without directives never consult it. -/
def trivialWorld : World :=
  ⟨fun _ => .notFile, fun _ _ => .exn "", "", fun _ => false⟩

/-- Counterexample document: `NS.user` is a dynamic template reading
`inner.x` through namespace scope injection, `NS.inner.x` is the dynamic
template `$hello`; the builder records no edge between them (the
identifier `inner` matches no category), yet the rendered value of
`NS.user` depends on whether `NS.inner.x` has already been resolved. -/
def cdoc : VEntries :=
  .cons "NS"
    (.dict (.cons "inner" (.dict (.cons "x" (.str true [.lit "hello"]) .nil))
      (.cons "user" (.str true [.ref "inner" ["x"]]) .nil)))
    .nil

/-- One enumeration order of the relevant set of `cdoc`. -/
def cordA : List String := ["NS.inner.x", "NS.user"]

/-- The other enumeration order of the relevant set of `cdoc`. -/
def cordB : List String := ["NS.user", "NS.inner.x"]

/-- String projection of a pipeline result at a path (counterexample
probe). -/
def peekStr (r : Except String (List (String × PVal))) (segs : List String) : String :=
  match r with
  | .error _ => "<error>"
  | .ok c =>
    match getNested c segs with
    | some (.s v) => v
    | _ => "<none>"

/-- Plan of a compilation result, `none` on error. -/
def planOf (r : Except String (List Node)) : Option (List Node) :=
  match r with
  | .ok plan => some plan
  | .error _ => none

/-- A two-key document whose templates reference each other: the canonical
dependency cycle. -/
def docCyc : VEntries :=
  .cons "a" (.str true [.ref "b" []]) (.cons "b" (.str true [.ref "a" []]) .nil)

/-! ### Additional fixtures and heap-model predicates -/

/-- String projection of an optional context value (counterexample probe). -/
def pvalStr : Option PVal → String
  | some (.s v) => v
  | _ => "<none>"

/-- The compiled plan of `cdoc` under enumeration order `cordA`. -/
def planA : List Node :=
  [⟨"NS.inner.x", .str true [.lit "hello"], [], "NS"⟩,
   ⟨"NS.user", .str true [.ref "inner" ["x"]], [], "NS"⟩]

/-- The compiled plan of `cdoc` under enumeration order `cordB`. -/
def planB : List Node :=
  [⟨"NS.user", .str true [.ref "inner" ["x"]], [], "NS"⟩,
   ⟨"NS.inner.x", .str true [.lit "hello"], [], "NS"⟩]

/-- Every reference held in a mapping object points below `m`. -/
def hrefsBelow (d : HDict) (m : Nat) : Prop :=
  ∀ kv ∈ d, ∀ b, kv.2 = HVal.href b → b < m

/-- Every address and every held reference of the heap lies below `m`. -/
def storeBelow (st : Store) (m : Nat) : Prop :=
  ∀ e ∈ st, e.1 < m ∧ hrefsBelow e.2 m

/-- No mapping object of the heap holds a reference to address `c`. -/
def noRefTo (st : Store) (c : Nat) : Prop :=
  ∀ e ∈ st, ∀ kv ∈ e.2, ∀ b, kv.2 = HVal.href b → b ≠ c

/-- The loaded mapping `d` mirrors the top level of the raw document:
nested mappings became references, scalars stayed scalar. -/
def shapeOf (doc : VEntries) (d : HDict) : Prop :=
  ∀ k, match lookupVE doc k with
    | some (.dict _) => ∃ b, lookupHD d k = some (HVal.href b)
    | some _ => ∃ hv, lookupHD d k = some hv ∧ ∀ b, hv ≠ HVal.href b
    | none => lookupHD d k = none

/-- Invariant of the heap executor: the caller root is unreferenced and
its contents stay `d0`; the working root is unreferenced; the working
root still holds every reference entry of `d0` (the shared nested
mappings of the shallow copy). -/
def WorkInv (d0 : HDict) (root workRoot : Nat) (st : Store) (nx : Nat) : Prop :=
  noRefTo st root ∧ noRefTo st workRoot ∧ root < nx ∧ workRoot < nx ∧
  lookupStore st root = d0 ∧
  (∀ k b, lookupHD d0 k = some (HVal.href b) →
    lookupHD (lookupStore st workRoot) k = some (HVal.href b))

/-! ## Claim theorems -/

/-- C10: importing the packaged CLI fails before any configuration is
loaded: `cli.py` imports `load_raw_context` and `execute_plan` from
`config.py`, and `config.py` imports `resolve_dynamic_values` from
`processor.py`, but none of these three names is defined in the sources,
so the import chain of the `render` command cannot resolve and the
graph-based pipeline wired in `cli.py` is unreachable end to end. -/
theorem c10_cli_import_chain_broken :
    cliImportChainOk = false ∧
    importsResolve configImportsFromProcessor processorDefs = false ∧
    importsResolve cliImportsFromConfig configDefs = false := by
  decide

/-- C3: whenever the value still contains a template delimiter sequence,
`process_value` returns it unchanged and performs no filesystem read and
no shell execution, regardless of any `file://`, `@` or `!` prefix. -/
theorem c3_delimiter_gate (w : World) (key v : String) (repoRoot : Option String)
    (h : (containsSub v "\x7b\x7b" || containsSub v "\x7d\x7d") = true) :
    process_value w key (.s v) repoRoot = (.s v, []) := by
  simp [process_value, h]

/-- Witness for C3 at a value that is both delimiter-bearing and
`@`-prefixed. -/
theorem c3_delimiter_gate_witness :
    (containsSub "@\x7b\x7bsecret\x7d\x7d" "\x7b\x7b" ||
      containsSub "@\x7b\x7bsecret\x7d\x7d" "\x7d\x7d") = true ∧
    process_value trivialWorld "k" (.s "@\x7b\x7bsecret\x7d\x7d") (some "/r") =
      (.s "@\x7b\x7bsecret\x7d\x7d", []) :=
  ⟨by decide, c3_delimiter_gate trivialWorld "k" "@\x7b\x7bsecret\x7d\x7d" (some "/r") (by decide)⟩

theorem string_data_append (a b : String) : (a ++ b).data = a.data ++ b.data := rfl

theorem hasPre_self_dot_false (v : String) : hasPre (v ++ ".") v = false := by
  unfold hasPre
  by_contra hne
  simp only [Bool.not_eq_false] at hne
  have hpre := List.isPrefixOf_iff_prefix.mp hne
  have hlen := hpre.length_le
  rw [string_data_append] at hlen
  simp at hlen

/-- C4: the parent-removal pruning of `cli.render` discards an accessed
path exactly when that path followed by `.` is a dotted prefix of some
other accessed path; in particular a path under which nothing else was
accessed is kept, so requesting a parent never suppresses its children and
a sibling access never causes a discard. -/
theorem c4_parent_pruning (rawVars : List String) (var : String) :
    (var ∈ requiredVarsOf rawVars ↔
      var ∈ rawVars ∧ ¬ ∃ other ∈ rawVars, other ≠ var ∧ hasPre (var ++ ".") other = true) ∧
    (var ∈ rawVars → (∀ other ∈ rawVars, hasPre (var ++ ".") other = false) →
      var ∈ requiredVarsOf rawVars) := by
  have hmain : var ∈ requiredVarsOf rawVars ↔
      var ∈ rawVars ∧ ¬ ∃ other ∈ rawVars, other ≠ var ∧ hasPre (var ++ ".") other = true := by
    unfold requiredVarsOf
    rw [List.mem_filter]
    constructor
    · rintro ⟨hv, hany⟩
      refine ⟨hv, ?_⟩
      rintro ⟨other, ho, _, hp⟩
      simp only [Bool.not_eq_true', List.any_eq_false] at hany
      exact absurd hp (by simpa using hany other ho)
    · rintro ⟨hv, hnone⟩
      refine ⟨hv, ?_⟩
      simp only [Bool.not_eq_true', List.any_eq_false]
      intro other ho
      by_cases heq : other = var
      · subst heq
        simp [hasPre_self_dot_false]
      · by_contra hcon
        apply hnone
        refine ⟨other, ho, heq, ?_⟩
        revert hcon
        cases h : hasPre (var ++ ".") other <;> simp [h]
  refine ⟨hmain, fun hv hall => ?_⟩
  refine hmain.mpr ⟨hv, ?_⟩
  rintro ⟨other, ho, _, hp⟩
  exact absurd hp (by simp [hall other ho])

/-- Witness for C4: a lone parent path is kept even when a sibling
namespace path is also accessed. -/
theorem c4_parent_pruning_witness :
    "NS" ∈ requiredVarsOf ["NS", "SIBLING.x"] :=
  (c4_parent_pruning ["NS", "SIBLING.x"] "NS").1.mpr ⟨by decide, by decide⟩

theorem mem_foldl_append (f : String → List String) (l : List String)
    (acc : List String) (b : String) :
    b ∈ l.foldl (fun acc a => acc ++ f a) acc ↔ b ∈ acc ∨ ∃ a ∈ l, b ∈ f a := by
  induction l generalizing acc with
  | nil => simp
  | cons x t ih =>
    rw [List.foldl_cons, ih]
    simp only [List.mem_append, List.mem_cons]
    constructor
    · rintro (⟨hb | hb⟩ | ⟨a, ha, hb⟩)
      · exact Or.inl hb
      · exact Or.inr ⟨x, Or.inl rfl, hb⟩
      · exact Or.inr ⟨a, Or.inr ha, hb⟩
    · rintro (hb | ⟨a, (rfl | ha), hb⟩)
      · exact Or.inl (Or.inl hb)
      · exact Or.inl (Or.inr hb)
      · exact Or.inr ⟨a, ha, hb⟩

/-- Free identifiers of a raw value's template (empty for non-strings). -/
def identsOfRaw : Val → List String
  | .str _ pieces => identsOf pieces
  | _ => []

theorem nodeKeys_buildGraph (doc : VEntries) :
    nodeKeys (buildGraph doc) = (flattenEntries doc "" "").map (·.1) := by
  simp [nodeKeys, buildGraph, List.map_map]

theorem deps_of_buildGraph (doc : VEntries) (node : Node) (hn : node ∈ buildGraph doc) :
    node.dependencies =
      depsOfVal (nodeKeys (buildGraph doc)) node.nspace node.raw_value := by
  rw [nodeKeys_buildGraph]
  unfold buildGraph at hn
  obtain ⟨item, _, rfl⟩ := List.mem_map.mp hn
  rfl

theorem mem_depsOfVal (allKeys : List String) (nspace : String) (raw : Val) (d : String) :
    d ∈ depsOfVal allKeys nspace raw ↔
      ∃ var ∈ identsOfRaw raw, d ∈ resolveVar allKeys nspace var := by
  cases raw with
  | str marked pieces =>
    unfold depsOfVal identsOfRaw
    exact (mem_foldl_append _ _ [] d).trans (by simp)
  | num n => simp [depsOfVal, identsOfRaw]
  | dict es => simp [depsOfVal, identsOfRaw]

/-- C6: `DependencyGraph.build` resolves every free identifier of a node's
(marker-stripped) template source by the three-category rule — (1) the
same-namespace sibling if it exists, else (2) the identifier as an exact
key path, else (3) every key path extending the identifier as a dotted
namespace, all of them — and a node's dependency set is exactly the union
of these resolutions over its identifiers; non-string raw values and
identifiers matching no category contribute nothing. -/
theorem c6_build_resolution (doc : VEntries) :
    (∀ node ∈ buildGraph doc, ∀ d : String,
      d ∈ node.dependencies ↔
        ∃ var ∈ identsOfRaw node.raw_value,
          d ∈ resolveVar (nodeKeys (buildGraph doc)) node.nspace var) ∧
    (∀ allKeys : List String, ∀ nspace var : String,
      (nspace ≠ "" → (nspace ++ "." ++ var) ∈ allKeys →
        resolveVar allKeys nspace var = [nspace ++ "." ++ var]) ∧
      (¬ (nspace ≠ "" ∧ (nspace ++ "." ++ var) ∈ allKeys) → var ∈ allKeys →
        resolveVar allKeys nspace var = [var]) ∧
      (¬ (nspace ≠ "" ∧ (nspace ++ "." ++ var) ∈ allKeys) → var ∉ allKeys →
        resolveVar allKeys nspace var =
          allKeys.filter (fun k => hasPre (var ++ ".") k))) := by
  constructor
  · intro node hn d
    rw [deps_of_buildGraph doc node hn]
    exact mem_depsOfVal _ _ _ d
  · intro allKeys nspace var
    refine ⟨?_, ?_, ?_⟩
    · intro hns hmem
      have hc : (nspace != "" && allKeys.contains (nspace ++ "." ++ var)) = true := by
        simp [hns, hmem]
      unfold resolveVar
      rw [if_pos hc]
    · intro hnot hmem
      have hc : (nspace != "" && allKeys.contains (nspace ++ "." ++ var)) = false := by
        rcases not_and_or.mp hnot with h | h
        · simp [ne_eq, not_not.mp h]
        · simp [h]
      have hcne : ¬ ((nspace != "" && allKeys.contains (nspace ++ "." ++ var)) = true) := by
        rw [hc]
        exact Bool.false_ne_true
      unfold resolveVar
      rw [if_neg hcne, if_pos (by simpa using hmem)]
    · intro hnot hmem
      have hc : (nspace != "" && allKeys.contains (nspace ++ "." ++ var)) = false := by
        rcases not_and_or.mp hnot with h | h
        · simp [ne_eq, not_not.mp h]
        · simp [h]
      have hcne : ¬ ((nspace != "" && allKeys.contains (nspace ++ "." ++ var)) = true) := by
        rw [hc]
        exact Bool.false_ne_true
      unfold resolveVar
      rw [if_neg hcne, if_neg (by simpa using hmem)]

/-- Witness for C6 on the counterexample document: the category facts at a
concrete instance. -/
theorem c6_build_resolution_witness :
    ∀ node ∈ buildGraph cdoc, ∀ d : String,
      d ∈ node.dependencies ↔
        ∃ var ∈ identsOfRaw node.raw_value,
          d ∈ resolveVar (nodeKeys (buildGraph cdoc)) node.nspace var :=
  (c6_build_resolution cdoc).1

theorem hasPre_head (p v : String) (c : Char) (t : List Char)
    (hp : p.data = c :: t) (h : hasPre p v = true) : v.data.head? = some c := by
  unfold hasPre at h
  obtain ⟨r, hr⟩ := List.isPrefixOf_iff_prefix.mp h
  rw [← hr, hp]
  rfl

/-- C7: on a delimiter-free string, `process_value` evaluates the directive
forms exclusively of one another: `@p` with a set repo root reads
`repo_root/p` with leading slashes stripped and with an unset repo root
returns a placeholder without touching the world; `file://` URIs read the
reassembled path, resolved against the cwd when relative; `!cmd` runs the
command via the shell, with cwd `repo_root` exactly when it is a valid
directory, trimming stdout and converting a nonzero exit or an execution
error to a placeholder; a read of a missing or failing file likewise
yields a placeholder, never an exception; and a string matching no form is
returned unchanged with no effect. -/
theorem c7_directive_resolution (w : World) (key v : String) (repoRoot : Option String)
    (hnd : (containsSub v "\x7b\x7b" || containsSub v "\x7d\x7d") = false) :
    (hasPre "@" v = true → repoRoot = none →
      process_value w key (.s v) repoRoot = (.s "<Error: repo_root undefined>", [])) ∧
    (∀ r, hasPre "@" v = true → repoRoot = some r →
      process_value w key (.s v) repoRoot =
        readAsText w (joinPath r (stripSlashes (sdrop v 1)))) ∧
    (hasPre "file://" v = true →
      process_value w key (.s v) repoRoot =
        readAsText w (if hasPre "/" (sdrop v 7) then sdrop v 7
          else joinPath w.cwd (sdrop v 7))) ∧
    (hasPre "!" v = true →
      process_value w key (.s v) repoRoot =
        (let command := sdrop v 1
         let execCwd : Option String :=
           match repoRoot with
           | some root => if w.isDir root then some root else none
           | none => none
         match w.runShell command execCwd with
         | .ok out => (.s out.trim, [.runC command execCwd])
         | .fail _ => (.s "<Error: Command failed>", [.runC command execCwd])
         | .exn m => (.s m, [.runC command execCwd]))) ∧
    (hasPre "@" v = false → hasPre "file://" v = false → hasPre "!" v = false →
      process_value w key (.s v) repoRoot = (.s v, [])) ∧
    (∀ p, (readAsText w p).2 = [.readF p] ∧
      (∀ s, w.fileRead p = .content s → (readAsText w p).1 = .s s) ∧
      (w.fileRead p = .notFile →
        (readAsText w p).1 = .s ("<Error: File not found " ++ p ++ ">")) ∧
      (∀ m, w.fileRead p = .err m → (readAsText w p).1 = .s m)) := by
  have hndne : ¬ ((containsSub v "\x7b\x7b" || containsSub v "\x7d\x7d") = true) := by
    rw [hnd]
    exact Bool.false_ne_true
  refine ⟨?_, ?_, ?_, ?_, ?_, ?_⟩
  · intro ha hr
    simp only [process_value]
    rw [if_neg hndne, if_pos ⟨ha, hr⟩]
  · intro r ha hr
    subst hr
    simp only [process_value]
    rw [if_neg hndne, if_neg (by rintro ⟨_, hc⟩; exact Option.noConfusion hc)]
    simp only [ha]
  · intro hf
    have hafalse : hasPre "@" v = false := by
      cases hcase : hasPre "@" v
      · rfl
      · have h1 := hasPre_head "@" v '@' [] rfl hcase
        have h2 := hasPre_head "file://" v 'f' ['i', 'l', 'e', ':', '/', '/'] rfl hf
        rw [h1] at h2
        exact absurd (Option.some.inj h2) (by decide)
    simp only [process_value]
    rw [if_neg hndne]
    rw [if_neg (fun hand => by rw [hafalse] at hand; exact Bool.false_ne_true hand.1)]
    simp only [hafalse, hf]
    cases repoRoot <;> simp
  · intro hb
    have hafalse : hasPre "@" v = false := by
      cases hcase : hasPre "@" v
      · rfl
      · have h1 := hasPre_head "@" v '@' [] rfl hcase
        have h2 := hasPre_head "!" v '!' [] rfl hb
        rw [h1] at h2
        exact absurd (Option.some.inj h2) (by decide)
    have hffalse : hasPre "file://" v = false := by
      cases hcase : hasPre "file://" v
      · rfl
      · have h1 := hasPre_head "file://" v 'f' ['i', 'l', 'e', ':', '/', '/'] rfl hcase
        have h2 := hasPre_head "!" v '!' [] rfl hb
        rw [h1] at h2
        exact absurd (Option.some.inj h2) (by decide)
    simp only [process_value]
    rw [if_neg hndne]
    rw [if_neg (fun hand => by rw [hafalse] at hand; exact Bool.false_ne_true hand.1)]
    simp only [hafalse, hffalse, hb]
    cases repoRoot <;> simp
  · intro ha hf hb
    simp only [process_value]
    rw [if_neg hndne]
    rw [if_neg (fun hand => by rw [ha] at hand; exact Bool.false_ne_true hand.1)]
    simp only [ha, hf, hb]
    cases repoRoot <;> simp
  · intro p
    refine ⟨?_, ?_, ?_, ?_⟩
    · unfold readAsText
      cases w.fileRead p <;> rfl
    · intro s hs
      simp [readAsText, hs]
    · intro hs
      simp [readAsText, hs]
    · intro m hm
      simp [readAsText, hm]

/-- Witness for C7 at a shell directive with a valid repo root. -/
theorem c7_directive_resolution_witness :
    (containsSub "!echo hi" "\x7b\x7b" || containsSub "!echo hi" "\x7d\x7d") = false ∧
    (hasPre "!" "!echo hi" = true →
      process_value trivialWorld "k" (.s "!echo hi") (some "/r") =
        (let command := sdrop "!echo hi" 1
         let execCwd : Option String :=
           match some "/r" with
           | some root => if trivialWorld.isDir root then some root else none
           | none => none
         match trivialWorld.runShell command execCwd with
         | .ok out => (.s out.trim, [.runC command execCwd])
         | .fail _ => (.s "<Error: Command failed>", [.runC command execCwd])
         | .exn m => (.s m, [.runC command execCwd]))) :=
  ⟨by decide,
    (c7_directive_resolution trivialWorld "k" "!echo hi" (some "/r") (by decide)).2.2.2.1⟩

theorem depsOf_eq_of_find (g : List Node) (k : String) (n : Node)
    (h : g.find? (fun m => m.key_path == k) = some n) : depsOf g k = n.dependencies := by
  unfold depsOf
  rw [h]

theorem depsOf_eq_nil_of_find_none (g : List Node) (k : String)
    (h : g.find? (fun m => m.key_path == k) = none) : depsOf g k = [] := by
  unfold depsOf
  rw [h]

theorem dfsLoopF_spec (g : List Node) :
    ∀ fuel visited stack,
      dfsMeasure g visited stack < fuel →
      (∀ x ∈ visited, ∀ d ∈ depsOf g x, d ∈ visited ∨ d ∈ stack) →
      (∀ x ∈ visited, x ∈ dfsLoopF g fuel visited stack) ∧
      (∀ s ∈ stack, s ∈ dfsLoopF g fuel visited stack) ∧
      (∀ x ∈ dfsLoopF g fuel visited stack, ∀ d ∈ depsOf g x,
        d ∈ dfsLoopF g fuel visited stack) ∧
      (∀ x ∈ dfsLoopF g fuel visited stack,
        x ∈ visited ∨ ∃ s ∈ stack, Reaches g s x) := by
  intro fuel
  induction fuel with
  | zero => intro visited stack hlt; omega
  | succ fuel ih =>
    intro visited stack hlt hInv
    match stack with
    | [] =>
      refine ⟨fun x hx => hx, by simp, ?_, fun x hx => Or.inl hx⟩
      intro x hx d hd
      rcases hInv x hx d hd with h | h
      · exact h
      · simp at h
    | current :: rest =>
      by_cases hvc : visited.contains current = true
      · have hR : dfsLoopF g (fuel + 1) visited (current :: rest) =
            dfsLoopF g fuel visited rest := by
          have hv : current ∈ visited := by simpa using hvc
          simp [dfsLoopF, hv]
        have hm : dfsMeasure g visited rest < fuel := by
          unfold dfsMeasure at hlt ⊢
          simp only [List.length_cons] at hlt
          omega
        have hInv' : ∀ x ∈ visited, ∀ d ∈ depsOf g x, d ∈ visited ∨ d ∈ rest := by
          intro x hx d hd
          rcases hInv x hx d hd with h | h
          · exact Or.inl h
          · rcases List.mem_cons.mp h with rfl | h
            · exact Or.inl (by simpa using hvc)
            · exact Or.inr h
        obtain ⟨hsub, hstack, hclosed, hsound⟩ := ih visited rest hm hInv'
        rw [hR]
        refine ⟨hsub, ?_, hclosed, ?_⟩
        · intro s hs
          rcases List.mem_cons.mp hs with rfl | hs
          · exact hsub s (by simpa using hvc)
          · exact hstack s hs
        · intro x hx
          rcases hsound x hx with h | ⟨s, hs, hr⟩
          · exact Or.inl h
          · exact Or.inr ⟨s, List.mem_cons_of_mem _ hs, hr⟩
      · have hvcf : visited.contains current = false := by
          cases h : visited.contains current
          · rfl
          · exact absurd h hvc
        have hvn : current ∉ visited := by simpa using hvcf
        match hfind : g.find? (fun n => n.key_path == current) with
        | some n =>
          have hR : dfsLoopF g (fuel + 1) visited (current :: rest) =
              dfsLoopF g fuel (visited ++ [current])
                (rest ++ n.dependencies.filter (fun d => !visited.contains d)) := by
            simp [dfsLoopF, hvn, hfind]
          have hdeps : depsOf g current = n.dependencies := depsOf_eq_of_find g current n hfind
          have hmem := mem_nodeKeys_of_find g current n hfind
          have hlt2 := unvisitedCount_append_lt (nodeKeys g) visited current hmem hvcf
          have hdlen : (n.dependencies.filter (fun d => !visited.contains d)).length ≤
              maxDeps g :=
            le_trans (List.length_filter_le _ _)
              (depslen_le_maxDeps g n (List.mem_of_find?_eq_some hfind))
          have hm : dfsMeasure g (visited ++ [current])
              (rest ++ n.dependencies.filter (fun d => !visited.contains d)) < fuel := by
            unfold dfsMeasure at hlt ⊢
            have key : unvisitedCount (nodeKeys g) (visited ++ [current]) * (maxDeps g + 1) +
                (maxDeps g + 1) ≤ unvisitedCount (nodeKeys g) visited * (maxDeps g + 1) := by
              have hmu := Nat.mul_le_mul_right (maxDeps g + 1) hlt2
              rw [Nat.succ_mul] at hmu
              exact hmu
            simp only [List.length_append, List.length_cons] at hlt ⊢
            omega
          have hInv' : ∀ x ∈ visited ++ [current], ∀ d ∈ depsOf g x,
              d ∈ visited ++ [current] ∨
                d ∈ rest ++ n.dependencies.filter (fun d => !visited.contains d) := by
            intro x hx d hd
            rcases List.mem_append.mp hx with hx | hx
            · rcases hInv x hx d hd with h | h
              · exact Or.inl (List.mem_append_left _ h)
              · rcases List.mem_cons.mp h with rfl | h
                · exact Or.inl (List.mem_append_right _ (by simp))
                · exact Or.inr (List.mem_append_left _ h)
            · have hx : x = current := by simpa using hx
              subst hx
              rw [hdeps] at hd
              by_cases hdv : visited.contains d = true
              · exact Or.inl (List.mem_append_left _ (by simpa using hdv))
              · refine Or.inr (List.mem_append_right _ ?_)
                rw [List.mem_filter]
                exact ⟨hd, by simpa using hdv⟩
          obtain ⟨hsub, hstack, hclosed, hsound⟩ := ih _ _ hm hInv'
          rw [hR]
          refine ⟨?_, ?_, hclosed, ?_⟩
          · intro x hx
            exact hsub x (List.mem_append_left _ hx)
          · intro s hs
            rcases List.mem_cons.mp hs with rfl | hs
            · exact hsub s (List.mem_append_right _ (by simp))
            · exact hstack s (List.mem_append_left _ hs)
          · intro x hx
            rcases hsound x hx with h | ⟨s, hs, hr⟩
            · rcases List.mem_append.mp h with h | h
              · exact Or.inl h
              · have hx : x = current := by simpa using h
                subst hx
                exact Or.inr ⟨x, by simp, Relation.ReflTransGen.refl⟩
            · rcases List.mem_append.mp hs with hs | hs
              · exact Or.inr ⟨s, List.mem_cons_of_mem _ hs, hr⟩
              · have hsd : s ∈ depsOf g current := by
                  rw [hdeps]
                  exact (List.mem_filter.mp hs).1
                exact Or.inr ⟨current, by simp,
                  Relation.ReflTransGen.head hsd hr⟩
        | none =>
          have hR : dfsLoopF g (fuel + 1) visited (current :: rest) =
              dfsLoopF g fuel (visited ++ [current]) rest := by
            simp [dfsLoopF, hvn, hfind]
          have hdeps : depsOf g current = [] := depsOf_eq_nil_of_find_none g current hfind
          have hm : dfsMeasure g (visited ++ [current]) rest < fuel := by
            unfold dfsMeasure at hlt ⊢
            have hle := unvisitedCount_append_le (nodeKeys g) visited current
            have key : unvisitedCount (nodeKeys g) (visited ++ [current]) * (maxDeps g + 1) ≤
                unvisitedCount (nodeKeys g) visited * (maxDeps g + 1) :=
              Nat.mul_le_mul_right _ hle
            simp only [List.length_cons] at hlt ⊢
            omega
          have hInv' : ∀ x ∈ visited ++ [current], ∀ d ∈ depsOf g x,
              d ∈ visited ++ [current] ∨ d ∈ rest := by
            intro x hx d hd
            rcases List.mem_append.mp hx with hx | hx
            · rcases hInv x hx d hd with h | h
              · exact Or.inl (List.mem_append_left _ h)
              · rcases List.mem_cons.mp h with rfl | h
                · exact Or.inl (List.mem_append_right _ (by simp))
                · exact Or.inr h
            · have hx : x = current := by simpa using hx
              subst hx
              rw [hdeps] at hd
              simp at hd
          obtain ⟨hsub, hstack, hclosed, hsound⟩ := ih _ _ hm hInv'
          rw [hR]
          refine ⟨?_, ?_, hclosed, ?_⟩
          · intro x hx
            exact hsub x (List.mem_append_left _ hx)
          · intro s hs
            rcases List.mem_cons.mp hs with rfl | hs
            · exact hsub s (List.mem_append_right _ (by simp))
            · exact hstack s hs
          · intro x hx
            rcases hsound x hx with h | ⟨s, hs, hr⟩
            · rcases List.mem_append.mp h with h | h
              · exact Or.inl h
              · have hx : x = current := by simpa using h
                subst hx
                exact Or.inr ⟨x, by simp, Relation.ReflTransGen.refl⟩
            · exact Or.inr ⟨s, List.mem_cons_of_mem _ hs, hr⟩

theorem mem_seedKeys (g : List Node) (reqs : List String) (s : String) :
    s ∈ seedKeys g reqs ↔ s ∈ nodeKeys g ∧ seedMatch reqs s = true := by
  unfold seedKeys seedMatch
  exact List.mem_filter

theorem reach_closed (g : List Node) (R : List String)
    (hclosed : ∀ x ∈ R, ∀ d ∈ depsOf g x, d ∈ R) :
    ∀ s x, Reaches g s x → s ∈ R → x ∈ R := by
  intro s x h
  induction h with
  | refl => exact id
  | tail _ hbc ih => exact fun hs => hclosed _ (ih hs) _ hbc

/-- Full characterisation of `_get_required_subgraph`: the whole key set
for a `None` or empty accessed-path set, otherwise exactly the keys
reachable along stored dependency edges from the seeds matched exactly,
as a dotted prefix (`candidate.`), or as a dotted suffix
(`.candidate`). -/
theorem requiredSubgraph_spec (g : List Node) (target : Option (List String)) (x : String) :
    (target = none → requiredSubgraph g target = nodeKeys g) ∧
    (∀ reqs, target = some reqs → reqs.isEmpty = true →
      requiredSubgraph g target = nodeKeys g) ∧
    (∀ reqs, target = some reqs → reqs.isEmpty = false →
      (x ∈ requiredSubgraph g target ↔
        ∃ s, s ∈ nodeKeys g ∧ seedMatch reqs s = true ∧ Reaches g s x)) := by
  refine ⟨?_, ?_, ?_⟩
  · rintro rfl
    rfl
  · rintro reqs rfl he
    simp [requiredSubgraph, he]
  · rintro reqs rfl he
    have hreq : requiredSubgraph g (some reqs) =
        if reqs.isEmpty then nodeKeys g else dfsLoop g [] (seedKeys g reqs) := rfl
    rw [hreq, if_neg (by rw [he]; exact Bool.false_ne_true)]
    unfold dfsLoop
    obtain ⟨hsub, hstack, hclosed, hsound⟩ :=
      dfsLoopF_spec g (dfsMeasure g [] (seedKeys g reqs) + 1) [] (seedKeys g reqs)
        (Nat.lt_succ_self _) (by simp)
    constructor
    · intro hx
      rcases hsound x hx with h | ⟨s, hs, hr⟩
      · simp at h
      · obtain ⟨hsn, hsm⟩ := (mem_seedKeys g reqs s).mp hs
        exact ⟨s, hsn, hsm, hr⟩
    · rintro ⟨s, hsn, hsm, hr⟩
      exact reach_closed g _ hclosed s x hr
        (hstack s ((mem_seedKeys g reqs s).mpr ⟨hsn, hsm⟩))

/-- C2: `_get_required_subgraph` returns exactly the key paths reachable,
along stored dependency edges to fixpoint, from the seed set of graph keys
matching some accessed candidate exactly, as a dotted prefix
(`candidate.`), or as a dotted suffix (`.candidate`); with a `None` or
empty accessed set it returns every graph key. -/
theorem c2_required_subgraph (g : List Node) (target : Option (List String)) (x : String) :
    (target = none → requiredSubgraph g target = nodeKeys g) ∧
    (∀ reqs, target = some reqs → reqs.isEmpty = true →
      requiredSubgraph g target = nodeKeys g) ∧
    (∀ reqs, target = some reqs → reqs.isEmpty = false →
      (x ∈ requiredSubgraph g target ↔
        ∃ s, s ∈ nodeKeys g ∧ seedMatch reqs s = true ∧ Reaches g s x)) :=
  requiredSubgraph_spec g target x

/-- Witness for C2: a seed key of the counterexample document is in its
own required subgraph. -/
theorem c2_required_subgraph_witness :
    "NS.user" ∈ requiredSubgraph (buildGraph cdoc) (some ["NS"]) :=
  ((c2_required_subgraph (buildGraph cdoc) (some ["NS"]) "NS.user").2.2 ["NS"] rfl
    (by decide)).mpr
    ⟨"NS.user", by decide, by decide, Relation.ReflTransGen.refl⟩

theorem dropWhile_ne_suffix_of_mem (path : List String) (cur : String) (h : cur ∈ path) :
    ∃ suf, path.dropWhile (fun x => x != cur) = cur :: suf ∧
      (cur :: suf) <:+ path := by
  induction path with
  | nil => simp at h
  | cons a t ih =>
    by_cases hac : a = cur
    · subst hac
      refine ⟨t, ?_, List.suffix_refl _⟩
      rw [List.dropWhile_cons]
      simp
    · have hct : cur ∈ t := by
        cases h with
        | head => exact absurd rfl hac
        | tail _ h => exact h
      obtain ⟨suf, hdw, hsuf⟩ := ih hct
      refine ⟨suf, ?_, hsuf.trans (List.suffix_cons a t)⟩
      rw [List.dropWhile_cons]
      simp only [bne_iff_ne, ne_eq, hac, not_false_eq_true, if_true]
      exact hdw

theorem nodup_subset_length_le (l K : List String) (hn : l.Nodup)
    (hs : ∀ x ∈ l, x ∈ K) : l.length ≤ K.length := by
  classical
  have h1 : l.toFinset.card = l.length := List.toFinset_card_of_nodup hn
  have h2 : l.toFinset ⊆ K.toFinset := by
    intro x hx
    rw [List.mem_toFinset] at hx ⊢
    exact hs x hx
  have h3 := Finset.card_le_card h2
  have h4 : K.toFinset.card ≤ K.length := List.toFinset_card_le K
  omega

theorem chase_spec (nextF : String → Option String) (R : String → String → Prop)
    (hnext : ∀ k d, nextF k = some d → R k d)
    (K : List String)
    (hK : ∀ k ∈ K, ∃ d, nextF k = some d ∧ d ∈ K) :
    ∀ fuel path cur, path.Nodup → (∀ p ∈ path, p ∈ K) → cur ∈ K →
      List.Chain' R (path ++ [cur]) →
      K.length + 1 ≤ fuel + path.length →
      2 ≤ (chase nextF fuel path cur).length ∧
      (chase nextF fuel path cur).head? = (chase nextF fuel path cur).getLast? ∧
      List.Chain' R (chase nextF fuel path cur) ∧
      ∀ x ∈ chase nextF fuel path cur, x ∈ K := by
  intro fuel
  induction fuel with
  | zero =>
    intro path cur hnd hsub hcur _ hbound
    exfalso
    have := nodup_subset_length_le path K hnd hsub
    omega
  | succ fuel ih =>
    intro path cur hnd hsub hcur hchain hbound
    by_cases hmem : cur ∈ path
    · have hres : chase nextF (fuel + 1) path cur =
          path.dropWhile (fun x => x != cur) ++ [cur] := by
        simp [chase, hmem]
      obtain ⟨suf, hdw, hsuf⟩ := dropWhile_ne_suffix_of_mem path cur hmem
      rw [hres, hdw]
      have hsuf2 : (cur :: suf) ++ [cur] <:+ path ++ [cur] := by
        obtain ⟨pre, hpre⟩ := hsuf
        exact ⟨pre, by rw [← hpre]; simp⟩
      refine ⟨by simp, ?_, hchain.suffix hsuf2, ?_⟩
      · rw [List.getLast?_concat]
        rfl
      · intro x hx
        have := hsuf2.subset hx
        rcases List.mem_append.mp this with h | h
        · exact hsub x h
        · have : x = cur := by simpa using h
          subst this
          exact hcur
    · obtain ⟨d, hnd_eq, hdK⟩ := hK cur hcur
      have hres : chase nextF (fuel + 1) path cur =
          chase nextF fuel (path ++ [cur]) d := by
        simp [chase, hmem, hnd_eq]
      rw [hres]
      apply ih (path ++ [cur]) d
      · simp [List.nodup_append, hnd, hmem]
      · intro p hp
        rcases List.mem_append.mp hp with h | h
        · exact hsub p h
        · have : p = cur := by simpa using h
          subst this
          exact hcur
      · exact hdK
      · rw [List.chain'_append]
        refine ⟨hchain, List.chain'_singleton d, ?_⟩
        intro x hx y hy
        rw [List.getLast?_concat] at hx
        simp at hx hy
        subst hx
        subst hy
        exact hnext cur d hnd_eq
      · simp only [List.length_append, List.length_cons]
        omega

theorem lookupDeps_mem (remaining : List (String × List String)) (k : String)
    (hk : k ∈ remaining.map (·.1)) :
    ∃ it ∈ remaining, it.1 = k ∧ lookupDeps remaining k = it.2 := by
  have hex : ∃ it ∈ remaining, (it.1 == k) = true := by
    obtain ⟨it, hit, hik⟩ := List.mem_map.mp hk
    exact ⟨it, hit, by simp [hik]⟩
  obtain ⟨it, hit⟩ := Option.isSome_iff_exists.mp (List.find?_isSome.mpr hex)
  refine ⟨it, List.mem_of_find?_eq_some hit, by simpa using List.find?_some hit, ?_⟩
  unfold lookupDeps
  rw [hit]

theorem all_eq_false_exists (p : String → Bool) (l : List String)
    (h : l.all p = false) : ∃ x ∈ l, p x = false := by
  by_contra hc
  push_neg at hc
  have hall : l.all p = true := by
    rw [List.all_eq_true]
    intro x hx
    cases hp : p x
    · exact absurd hp (hc x hx)
    · rfl
  rw [hall] at h
  exact Bool.noConfusion h

theorem extractCycle_spec (emitted : List String)
    (remaining : List (String × List String)) (hne : remaining ≠ [])
    (hstuck : ∀ it ∈ remaining, readyItem emitted it = false)
    (hcl : ∀ it ∈ remaining, ∀ d ∈ it.2, d ∉ emitted → d ∈ remaining.map (·.1)) :
    2 ≤ (extractCycle emitted remaining).length ∧
    (extractCycle emitted remaining).head? = (extractCycle emitted remaining).getLast? ∧
    List.Chain' (fun a b => b ∈ lookupDeps remaining a) (extractCycle emitted remaining) ∧
    ∀ x ∈ extractCycle emitted remaining, x ∈ remaining.map (·.1) := by
  obtain ⟨it0, rest, rfl⟩ := List.exists_cons_of_ne_nil hne
  have hres : extractCycle emitted (it0 :: rest) =
      chase (fun k => firstPendingDep emitted (lookupDeps (it0 :: rest) k))
        ((it0 :: rest).length + 1) [] it0.1 := rfl
  rw [hres]
  apply chase_spec (fun k => firstPendingDep emitted (lookupDeps (it0 :: rest) k))
    (fun a b => b ∈ lookupDeps (it0 :: rest) a)
    (fun k d hd => List.mem_of_find?_eq_some hd)
    ((it0 :: rest).map (·.1))
  · intro k hkK
    obtain ⟨it, hit, hik, hdeps⟩ := lookupDeps_mem (it0 :: rest) k hkK
    have hrf := hstuck it hit
    unfold readyItem at hrf
    obtain ⟨d, hdmem, hdc⟩ := all_eq_false_exists _ _ hrf
    have hpend : ∃ x ∈ lookupDeps (it0 :: rest) k, (!emitted.contains x) = true := by
      rw [hdeps]
      exact ⟨d, hdmem, by simpa using hdc⟩
    obtain ⟨d', hd'⟩ :=
      Option.isSome_iff_exists.mp (List.find?_isSome.mpr hpend)
    refine ⟨d', hd', ?_⟩
    have hd'mem : d' ∈ lookupDeps (it0 :: rest) k := List.mem_of_find?_eq_some hd'
    have hd'nc : d' ∉ emitted := by
      have := List.find?_some hd'
      simpa using this
    rw [hdeps] at hd'mem
    exact hcl it hit d' hd'mem hd'nc
  · exact List.nodup_nil
  · simp
  · exact List.mem_map.mpr ⟨it0, by simp, rfl⟩
  · simp
  · simp

theorem chain'_imp_mem {R S : String → String → Prop} (l : List String)
    (h : ∀ a ∈ l, ∀ b, R a b → S a b) (hc : List.Chain' R l) : List.Chain' S l := by
  rw [List.chain'_iff_get] at hc ⊢
  intro i hi
  exact h _ (List.get_mem _ _ _) _ (hc i hi)

theorem mem_keys_filter_or (p : (String × List String) → Bool)
    (remaining : List (String × List String)) (k : String)
    (hk : k ∈ remaining.map (·.1)) :
    k ∈ (remaining.filter p).map (·.1) ∨
      k ∈ (remaining.filter (fun it => !p it)).map (·.1) := by
  obtain ⟨it, hit, hik⟩ := List.mem_map.mp hk
  cases hp : p it
  · right
    exact List.mem_map.mpr ⟨it, List.mem_filter.mpr ⟨hit, by simp [hp]⟩, hik⟩
  · left
    exact List.mem_map.mpr ⟨it, List.mem_filter.mpr ⟨hit, hp⟩, hik⟩

theorem lookupDeps_eq_F (F : String → List String)
    (remaining : List (String × List String))
    (hF : ∀ it ∈ remaining, it.2 = F it.1) (k : String)
    (hk : k ∈ remaining.map (·.1)) : lookupDeps remaining k = F k := by
  obtain ⟨it, hit, hik, hdeps⟩ := lookupDeps_mem remaining k hk
  rw [hdeps, hF it hit, hik]

theorem kahnRunF_error (F : String → List String) :
    ∀ fuel emitted (remaining : List (String × List String)) c,
      remaining.length < fuel →
      (∀ it ∈ remaining, it.2 = F it.1) →
      (∀ it ∈ remaining, ∀ d ∈ it.2, d ∉ emitted → d ∈ remaining.map (·.1)) →
      kahnRunF fuel emitted remaining = .error c →
      IsDepCycle F c ∧ ∀ x ∈ c, x ∈ remaining.map (·.1) := by
  intro fuel
  induction fuel with
  | zero =>
    intro emitted remaining c hlt
    omega
  | succ fuel ih =>
    intro emitted remaining c hlt hF hcl herr
    by_cases hemp : remaining.isEmpty
    · rw [show kahnRunF (fuel + 1) emitted remaining = .ok [] by simp [kahnRunF, hemp]]
        at herr
      exact Except.noConfusion herr
    · have hne : remaining ≠ [] := fun h => by
        rw [h] at hemp
        exact hemp rfl
      by_cases hre : (remaining.filter (readyItem emitted)).isEmpty
      · have heq : kahnRunF (fuel + 1) emitted remaining =
            .error (extractCycle emitted remaining) := by
          simp only [kahnRunF, hemp, Bool.false_eq_true, if_false]
          rw [if_pos hre]
        rw [heq] at herr
        have hc : c = extractCycle emitted remaining := (Except.error.inj herr).symm
        subst hc
        have hstuck : ∀ it ∈ remaining, readyItem emitted it = false := by
          intro it hit
          cases hri : readyItem emitted it
          · rfl
          · exfalso
            have : it ∈ remaining.filter (readyItem emitted) :=
              List.mem_filter.mpr ⟨hit, hri⟩
            rw [List.isEmpty_iff.mp hre] at this
            simp at this
        obtain ⟨hlen, hhl, hchain, hmem⟩ := extractCycle_spec emitted remaining hne hstuck hcl
        refine ⟨⟨hlen, hhl, ?_⟩, hmem⟩
        apply chain'_imp_mem _ _ hchain
        intro a ha b hb
        rwa [lookupDeps_eq_F F remaining hF a (hmem a ha)] at hb
      · have heq : kahnRunF (fuel + 1) emitted remaining =
            match kahnRunF fuel
              (emitted ++ (remaining.filter (readyItem emitted)).map (·.1))
              (remaining.filter (fun it => !readyItem emitted it)) with
            | .ok tail =>
              .ok ((remaining.filter (readyItem emitted)).map (·.1) ++ tail)
            | .error c => .error c := by
          simp only [kahnRunF, hemp, Bool.false_eq_true, if_false]
          rw [if_neg hre]
        rw [heq] at herr
        match hrec : kahnRunF fuel
            (emitted ++ (remaining.filter (readyItem emitted)).map (·.1))
            (remaining.filter (fun it => !readyItem emitted it)) with
        | .ok tail =>
          rw [hrec] at herr
          exact Except.noConfusion herr
        | .error c' =>
          rw [hrec] at herr
          have hc : c = c' := (Except.error.inj herr).symm
          subst hc
          have hready_ne : (remaining.filter (readyItem emitted)).length ≠ 0 := by
            intro h0
            exact hre (List.isEmpty_iff.mpr (List.length_eq_zero.mp h0))
          have hpart := length_filter_partition (readyItem emitted) remaining
          have hlt' : (remaining.filter (fun it => !readyItem emitted it)).length < fuel := by
            omega
          have hF' : ∀ it ∈ remaining.filter (fun it => !readyItem emitted it),
              it.2 = F it.1 := fun it hit => hF it (List.mem_filter.mp hit).1
          have hcl' : ∀ it ∈ remaining.filter (fun it => !readyItem emitted it),
              ∀ d ∈ it.2,
              d ∉ emitted ++ (remaining.filter (readyItem emitted)).map (·.1) →
              d ∈ (remaining.filter (fun it => !readyItem emitted it)).map (·.1) := by
            intro it hit d hd hdn
            have hdne : d ∉ emitted := fun h => hdn (List.mem_append_left _ h)
            have hdK := hcl it (List.mem_filter.mp hit).1 d hd hdne
            rcases mem_keys_filter_or (readyItem emitted) remaining d hdK with h | h
            · exact absurd (List.mem_append_right _ h) hdn
            · exact h
          obtain ⟨hcyc, hmem⟩ := ih _ _ c hlt' hF' hcl' hrec
          refine ⟨hcyc, ?_⟩
          intro x hx
          have := hmem x hx
          obtain ⟨it, hit, hik⟩ := List.mem_map.mp this
          exact List.mem_map.mpr ⟨it, (List.mem_filter.mp hit).1, hik⟩

theorem cycle_successor (F : String → List String) (cyc : List String)
    (hcyc : IsDepCycle F cyc) : ∀ x ∈ cyc, ∃ y ∈ cyc, y ∈ F x := by
  obtain ⟨hlen, hhl, hchain⟩ := hcyc
  rw [List.chain'_iff_get] at hchain
  intro x hx
  obtain ⟨i, hi, hget⟩ := List.mem_iff_getElem.mp hx
  by_cases hlast : i < cyc.length - 1
  · have hr := hchain i hlast
    refine ⟨cyc.get ⟨i + 1, by omega⟩, List.get_mem _ _ _, ?_⟩
    have hgi : cyc.get ⟨i, by omega⟩ = x := by
      simp [List.get_eq_getElem, hget]
    rwa [hgi] at hr
  · have hieq : i = cyc.length - 1 := by omega
    have hget2 : cyc[i]? = some x := by
      rw [List.getElem?_eq_getElem hi, hget]
    rw [hieq] at hget2
    have hhl2 : cyc[0]? = cyc[cyc.length - 1]? := by
      rw [← List.head?_eq_getElem?, ← List.getLast?_eq_getElem?]
      exact hhl
    rw [hget2] at hhl2
    have h0 : cyc[0]? = some (cyc.get ⟨0, by omega⟩) := by
      rw [List.getElem?_eq_getElem (show 0 < cyc.length by omega)]
      simp [List.get_eq_getElem]
    rw [h0] at hhl2
    have hx0 := Option.some.inj hhl2
    have hr := hchain 0 (by omega)
    refine ⟨cyc.get ⟨1, by omega⟩, List.get_mem _ _ _, ?_⟩
    rwa [hx0] at hr

theorem kahnRunF_cycle (F : String → List String) (c : List String)
    (hcyc : IsDepCycle F c) :
    ∀ fuel emitted (remaining : List (String × List String)),
      remaining.length < fuel →
      (∀ it ∈ remaining, it.2 = F it.1) →
      (∀ x ∈ c, x ∈ remaining.map (·.1)) →
      (∀ x ∈ c, x ∉ emitted) →
      ∃ msg, kahnRunF fuel emitted remaining = .error msg := by
  have hcne : c ≠ [] := by
    intro h
    rw [h] at hcyc
    exact absurd hcyc.1 (by simp)
  obtain ⟨x0, crest, hc0⟩ := List.exists_cons_of_ne_nil hcne
  intro fuel
  induction fuel with
  | zero =>
    intro emitted remaining hlt
    omega
  | succ fuel ih =>
    intro emitted remaining hlt hF hmem hem
    have hx0c : x0 ∈ c := by
      rw [hc0]
      simp
    have hne : remaining ≠ [] := by
      intro h
      have := hmem x0 hx0c
      rw [h] at this
      simp at this
    have hemp : remaining.isEmpty = false := by
      cases h : remaining.isEmpty
      · rfl
      · exact absurd (List.isEmpty_iff.mp h) hne
    have hnotready : ∀ it ∈ remaining, it.1 ∈ c → readyItem emitted it = false := by
      intro it hit hitc
      obtain ⟨y, hyc, hyF⟩ := cycle_successor F c hcyc it.1 hitc
      cases hri : readyItem emitted it
      · rfl
      · exfalso
        unfold readyItem at hri
        rw [List.all_eq_true] at hri
        have := hri y (by rw [hF it hit]; exact hyF)
        exact hem y hyc (by simpa using this)
    by_cases hre : (remaining.filter (readyItem emitted)).isEmpty
    · refine ⟨extractCycle emitted remaining, ?_⟩
      simp only [kahnRunF, hemp, Bool.false_eq_true, if_false]
      rw [if_pos hre]
    · have hready_ne : (remaining.filter (readyItem emitted)).length ≠ 0 := by
        intro h0
        exact hre (List.isEmpty_iff.mpr (List.length_eq_zero.mp h0))
      have hpart := length_filter_partition (readyItem emitted) remaining
      have hlt' : (remaining.filter (fun it => !readyItem emitted it)).length < fuel := by
        omega
      have hF' : ∀ it ∈ remaining.filter (fun it => !readyItem emitted it),
          it.2 = F it.1 := fun it hit => hF it (List.mem_filter.mp hit).1
      have hmem' : ∀ x ∈ c,
          x ∈ (remaining.filter (fun it => !readyItem emitted it)).map (·.1) := by
        intro x hx
        obtain ⟨it, hit, hik⟩ := List.mem_map.mp (hmem x hx)
        have hnr := hnotready it hit (by rw [hik]; exact hx)
        exact List.mem_map.mpr
          ⟨it, List.mem_filter.mpr ⟨hit, by simp [hnr]⟩, hik⟩
      have hem' : ∀ x ∈ c,
          x ∉ emitted ++ (remaining.filter (readyItem emitted)).map (·.1) := by
        intro x hx hcon
        rcases List.mem_append.mp hcon with h | h
        · exact hem x hx h
        · obtain ⟨it, hit, hik⟩ := List.mem_map.mp h
          have hitmem := (List.mem_filter.mp hit).1
          have hitready := (List.mem_filter.mp hit).2
          have hnr := hnotready it hitmem (by rw [hik]; exact hx)
          rw [hnr] at hitready
          exact Bool.noConfusion hitready
      obtain ⟨msg, hmsg⟩ := ih _ _ hlt' hF' hmem' hem'
      refine ⟨msg, ?_⟩
      simp only [kahnRunF, hemp, Bool.false_eq_true, if_false]
      rw [if_neg hre, hmsg]

theorem precedes_append_left (l1 l2 : List String) (a b : String)
    (h : precedes l2 a b) : precedes (l1 ++ l2) a b := by
  obtain ⟨i, j, hij, ha, hb⟩ := h
  refine ⟨l1.length + i, l1.length + j, by omega, ?_, ?_⟩
  · rw [List.getElem?_append_right (by omega)]
    simpa using ha
  · rw [List.getElem?_append_right (by omega)]
    simpa using hb

theorem precedes_append_cross (l1 l2 : List String) (a b : String)
    (ha : a ∈ l1) (hb : b ∈ l2) : precedes (l1 ++ l2) a b := by
  obtain ⟨i, hi, hia⟩ := List.mem_iff_getElem.mp ha
  obtain ⟨j, hj, hjb⟩ := List.mem_iff_getElem.mp hb
  refine ⟨i, l1.length + j, by omega, ?_, ?_⟩
  · rw [List.getElem?_append_left hi]
    rw [List.getElem?_eq_getElem hi, hia]
  · rw [List.getElem?_append_right (by omega)]
    have : l1.length + j - l1.length = j := by omega
    rw [this, List.getElem?_eq_getElem hj, hjb]

theorem keys_filter_disjoint (p : (String × List String) → Bool)
    (remaining : List (String × List String))
    (hnd : (remaining.map (·.1)).Nodup) (k : String)
    (h1 : k ∈ (remaining.filter p).map (·.1))
    (h2 : k ∈ (remaining.filter (fun it => !p it)).map (·.1)) : False := by
  obtain ⟨it1, hit1, hik1⟩ := List.mem_map.mp h1
  obtain ⟨it2, hit2, hik2⟩ := List.mem_map.mp h2
  have hm1 := (List.mem_filter.mp hit1).1
  have hm2 := (List.mem_filter.mp hit2).1
  have hp1 := (List.mem_filter.mp hit1).2
  have hp2 := (List.mem_filter.mp hit2).2
  have heq : it1 = it2 :=
    List.inj_on_of_nodup_map hnd hm1 hm2 (by rw [hik1, hik2])
  rw [heq] at hp1
  rw [hp1] at hp2
  simp at hp2

theorem kahnRunF_ok (F : String → List String) :
    ∀ fuel emitted (remaining : List (String × List String)) out,
      remaining.length < fuel →
      (∀ it ∈ remaining, it.2 = F it.1) →
      (remaining.map (·.1)).Nodup →
      kahnRunF fuel emitted remaining = .ok out →
      out.Nodup ∧ (∀ k, k ∈ out ↔ k ∈ remaining.map (·.1)) ∧
      (∀ k ∈ out, ∀ d ∈ F k, d ∈ emitted ∨ precedes out d k) := by
  intro fuel
  induction fuel with
  | zero =>
    intro emitted remaining out hlt
    omega
  | succ fuel ih =>
    intro emitted remaining out hlt hF hnd hok
    by_cases hemp : remaining.isEmpty
    · rw [show kahnRunF (fuel + 1) emitted remaining = .ok [] by simp [kahnRunF, hemp]]
        at hok
      have hout : out = [] := (Except.ok.inj hok).symm
      subst hout
      have hrem : remaining = [] := List.isEmpty_iff.mp hemp
      subst hrem
      exact ⟨List.nodup_nil, by simp, by simp⟩
    · by_cases hre : (remaining.filter (readyItem emitted)).isEmpty
      · have heq : kahnRunF (fuel + 1) emitted remaining =
            .error (extractCycle emitted remaining) := by
          simp only [kahnRunF, hemp, Bool.false_eq_true, if_false]
          rw [if_pos hre]
        rw [heq] at hok
        exact Except.noConfusion hok
      · have heq : kahnRunF (fuel + 1) emitted remaining =
            match kahnRunF fuel
              (emitted ++ (remaining.filter (readyItem emitted)).map (·.1))
              (remaining.filter (fun it => !readyItem emitted it)) with
            | .ok tail =>
              .ok ((remaining.filter (readyItem emitted)).map (·.1) ++ tail)
            | .error c => .error c := by
          simp only [kahnRunF, hemp, Bool.false_eq_true, if_false]
          rw [if_neg hre]
        rw [heq] at hok
        match hrec : kahnRunF fuel
            (emitted ++ (remaining.filter (readyItem emitted)).map (·.1))
            (remaining.filter (fun it => !readyItem emitted it)) with
        | .error c =>
          rw [hrec] at hok
          exact Except.noConfusion hok
        | .ok tail =>
          rw [hrec] at hok
          have hout : out = (remaining.filter (readyItem emitted)).map (·.1) ++ tail :=
            (Except.ok.inj hok).symm
          subst hout
          have hready_ne : (remaining.filter (readyItem emitted)).length ≠ 0 := by
            intro h0
            exact hre (List.isEmpty_iff.mpr (List.length_eq_zero.mp h0))
          have hpart := length_filter_partition (readyItem emitted) remaining
          have hlt' : (remaining.filter (fun it => !readyItem emitted it)).length < fuel := by
            omega
          have hF' : ∀ it ∈ remaining.filter (fun it => !readyItem emitted it),
              it.2 = F it.1 := fun it hit => hF it (List.mem_filter.mp hit).1
          have hnd' : ((remaining.filter (fun it => !readyItem emitted it)).map (·.1)).Nodup :=
            hnd.sublist ((List.filter_sublist remaining).map (·.1))
          obtain ⟨htnd, htiff, htdeps⟩ := ih _ _ tail hlt' hF' hnd' hrec
          have hrnd : ((remaining.filter (readyItem emitted)).map (·.1)).Nodup :=
            hnd.sublist ((List.filter_sublist remaining).map (·.1))
          refine ⟨?_, ?_, ?_⟩
          · refine List.Nodup.append hrnd htnd ?_
            intro k hk1 hk2
            exact keys_filter_disjoint (readyItem emitted) remaining hnd k hk1
              ((htiff k).mp hk2)
          · intro k
            rw [List.mem_append, htiff]
            constructor
            · rintro (h | h)
              · obtain ⟨it, hit, hik⟩ := List.mem_map.mp h
                exact List.mem_map.mpr ⟨it, (List.mem_filter.mp hit).1, hik⟩
              · obtain ⟨it, hit, hik⟩ := List.mem_map.mp h
                exact List.mem_map.mpr ⟨it, (List.mem_filter.mp hit).1, hik⟩
            · intro h
              exact mem_keys_filter_or (readyItem emitted) remaining k h
          · intro k hk d hd
            rcases List.mem_append.mp hk with hkr | hkt
            · obtain ⟨it, hit, hik⟩ := List.mem_map.mp hkr
              have hready := (List.mem_filter.mp hit).2
              unfold readyItem at hready
              rw [List.all_eq_true] at hready
              have hdit : d ∈ it.2 := by
                rw [hF it (List.mem_filter.mp hit).1, hik]
                exact hd
              exact Or.inl (by simpa using hready d hdit)
            · rcases htdeps k hkt d hd with hdem | hdp
              · rcases List.mem_append.mp hdem with h | h
                · exact Or.inl h
                · exact Or.inr (precedes_append_cross _ _ _ _ h hkt)
              · exact Or.inr (precedes_append_left _ _ _ _ hdp)

theorem resolveVar_subset (allKeys : List String) (nspace var d : String)
    (hd : d ∈ resolveVar allKeys nspace var) : d ∈ allKeys := by
  unfold resolveVar at hd
  by_cases h1 : (nspace != "" && allKeys.contains (nspace ++ "." ++ var)) = true
  · rw [if_pos h1] at hd
    have hm : allKeys.contains (nspace ++ "." ++ var) = true :=
      (Bool.and_eq_true _ _).mp h1 |>.2
    have : d = nspace ++ "." ++ var := by simpa using hd
    subst this
    simpa using hm
  · rw [if_neg h1] at hd
    by_cases h2 : allKeys.contains var = true
    · rw [if_pos h2] at hd
      have : d = var := by simpa using hd
      subst this
      simpa using h2
    · rw [if_neg h2] at hd
      exact (List.mem_filter.mp hd).1

theorem depsOf_buildGraph_subset (doc : VEntries) (k d : String)
    (hd : d ∈ depsOf (buildGraph doc) k) : d ∈ nodeKeys (buildGraph doc) := by
  match hfind : (buildGraph doc).find? (fun n => n.key_path == k) with
  | none =>
    rw [depsOf_eq_nil_of_find_none _ _ hfind] at hd
    simp at hd
  | some n =>
    rw [depsOf_eq_of_find _ _ n hfind] at hd
    have hn := List.mem_of_find?_eq_some hfind
    rw [deps_of_buildGraph doc n hn] at hd
    obtain ⟨var, _, hvar⟩ := (mem_depsOfVal _ _ _ d).mp hd
    exact resolveVar_subset _ _ _ _ hvar

theorem reaches_mem_nodeKeys (doc : VEntries) (s x : String)
    (hs : s ∈ nodeKeys (buildGraph doc)) (h : Reaches (buildGraph doc) s x) :
    x ∈ nodeKeys (buildGraph doc) := by
  induction h with
  | refl => exact hs
  | tail _ hbc ih => exact depsOf_buildGraph_subset doc _ _ hbc

theorem requiredSubgraph_subset (doc : VEntries) (target : Option (List String)) :
    ∀ x ∈ requiredSubgraph (buildGraph doc) target, x ∈ nodeKeys (buildGraph doc) := by
  intro x hx
  match target with
  | none => exact hx
  | some reqs =>
    by_cases he : reqs.isEmpty
    · have h0 : requiredSubgraph (buildGraph doc) (some reqs) =
          if reqs.isEmpty then nodeKeys (buildGraph doc)
          else dfsLoop (buildGraph doc) [] (seedKeys (buildGraph doc) reqs) := rfl
      rw [h0, if_pos he] at hx
      exact hx
    · have hef : reqs.isEmpty = false := by
        cases h : reqs.isEmpty
        · rfl
        · exact absurd h he
      have hiff := ((requiredSubgraph_spec (buildGraph doc) (some reqs) x).2.2 reqs rfl hef).mp hx
      obtain ⟨s, hsn, _, hr⟩ := hiff
      exact reaches_mem_nodeKeys doc s x hsn hr

theorem find_key_isSome_iff (g : List Node) (k : String) :
    (g.find? (fun n => n.key_path == k)).isSome = true ↔ k ∈ nodeKeys g := by
  rw [List.find?_isSome]
  constructor
  · rintro ⟨n, hn, hnk⟩
    exact List.mem_map.mpr ⟨n, hn, by simpa using hnk⟩
  · intro h
    obtain ⟨n, hn, hnk⟩ := List.mem_map.mp h
    exact ⟨n, hn, by simp [hnk]⟩

theorem restrictedItems_F (g : List Node) (relevant ord : List String) :
    ∀ it ∈ restrictedItems g relevant ord, it.2 = restrictedDeps g relevant it.1 := by
  intro it hit
  obtain ⟨k, _, hk⟩ := List.mem_filterMap.mp hit
  match hfind : g.find? (fun n => n.key_path == k) with
  | none =>
    rw [hfind] at hk
    exact absurd hk (by simp)
  | some n =>
    rw [hfind] at hk
    simp only [Option.map_some'] at hk
    have hit_eq : it = (k, n.dependencies.filter (fun d => relevant.contains d)) := by
      exact (Option.some.inj hk).symm
    subst hit_eq
    unfold restrictedDeps
    rw [depsOf_eq_of_find g k n hfind]

theorem restrictedItems_keys (g : List Node) (relevant ord : List String) :
    (restrictedItems g relevant ord).map (·.1) =
      ord.filter (fun k => (g.find? (fun n => n.key_path == k)).isSome) := by
  induction ord with
  | nil => rfl
  | cons k t ih =>
    unfold restrictedItems at ih ⊢
    rw [List.filterMap_cons, List.filter_cons]
    match hfind : g.find? (fun n => n.key_path == k) with
    | none => simpa [hfind] using ih
    | some n => simpa [hfind] using ih

theorem mem_restrictedItems_keys (g : List Node) (relevant ord : List String)
    (k : String) :
    k ∈ (restrictedItems g relevant ord).map (·.1) ↔ k ∈ ord ∧ k ∈ nodeKeys g := by
  rw [restrictedItems_keys, List.mem_filter, find_key_isSome_iff]

/-- C5: with `ord` an enumeration of the relevant set, the compiled plan of
`get_execution_plan` fails exactly when the dependency graph restricted to
the relevant set contains a cycle; on failure the single raised error
carries the member paths of a genuine restricted-dependency cycle, joined
by `->`, and no plan is produced; on an acyclic restricted graph a plan is
returned and no exception is raised. -/
theorem c5_cycle_detection (doc : VEntries) (target : Option (List String))
    (ord : List String)
    (hord : EnumOf ord (requiredSubgraph (buildGraph doc) target)) :
    ((∃ cyc, IsDepCycle (restrictedDeps (buildGraph doc)
        (requiredSubgraph (buildGraph doc) target)) cyc ∧
        ∀ x ∈ cyc, x ∈ requiredSubgraph (buildGraph doc) target) ↔
      (∃ msg, get_execution_plan (buildGraph doc) target ord = .error msg)) ∧
    (∀ msg, get_execution_plan (buildGraph doc) target ord = .error msg →
      ∃ cyc, IsDepCycle (restrictedDeps (buildGraph doc)
          (requiredSubgraph (buildGraph doc) target)) cyc ∧
        (∀ x ∈ cyc, x ∈ requiredSubgraph (buildGraph doc) target) ∧
        msg = "检测到循环依赖: " ++ String.intercalate " -> " cyc) ∧
    ((¬ ∃ cyc, IsDepCycle (restrictedDeps (buildGraph doc)
        (requiredSubgraph (buildGraph doc) target)) cyc ∧
        ∀ x ∈ cyc, x ∈ requiredSubgraph (buildGraph doc) target) →
      ∃ plan, get_execution_plan (buildGraph doc) target ord = .ok plan) := by
  set g := buildGraph doc with hg
  set relevant := requiredSubgraph g target with hrel
  set items := restrictedItems g relevant ord with hitems
  have hF := restrictedItems_F g relevant ord
  have hKeysRel : ∀ x, x ∈ items.map (·.1) ↔ x ∈ relevant := by
    intro x
    rw [hitems, mem_restrictedItems_keys]
    constructor
    · rintro ⟨hxo, _⟩
      exact hord.2.1 x hxo
    · intro hxr
      exact ⟨hord.2.2 x hxr, requiredSubgraph_subset doc target x hxr⟩
  have hcl : ∀ it ∈ items, ∀ d ∈ it.2, d ∉ ([] : List String) →
      d ∈ items.map (·.1) := by
    intro it hit d hd _
    rw [hF it hit] at hd
    unfold restrictedDeps at hd
    have hdrel : d ∈ relevant := by simpa using (List.mem_filter.mp hd).2
    exact (hKeysRel d).mpr hdrel
  have herr_cycle : ∀ c, staticOrder items = .error c →
      IsDepCycle (restrictedDeps g relevant) c ∧ ∀ x ∈ c, x ∈ relevant := by
    intro c hc
    obtain ⟨hcyc, hmem⟩ := kahnRunF_error (restrictedDeps g relevant)
      (items.length + 1) [] items c (Nat.lt_succ_self _) hF hcl hc
    exact ⟨hcyc, fun x hx => (hKeysRel x).mp (hmem x hx)⟩
  have hcycle_err : (∃ cyc, IsDepCycle (restrictedDeps g relevant) cyc ∧
      ∀ x ∈ cyc, x ∈ relevant) → ∃ msg, staticOrder items = .error msg := by
    rintro ⟨cyc, hcyc, hmem⟩
    exact kahnRunF_cycle (restrictedDeps g relevant) cyc hcyc (items.length + 1) [] items
      (Nat.lt_succ_self _) hF (fun x hx => (hKeysRel x).mpr (hmem x hx))
      (by simp)
  have hplan_eq : ∀ r, staticOrder items = r →
      get_execution_plan g target ord =
        (match r with
         | .error c => .error ("检测到循环依赖: " ++ String.intercalate " -> " c)
         | .ok sortedKeys =>
           .ok (sortedKeys.filterMap fun k => g.find? (fun n => n.key_path == k))) := by
    intro r hr
    have h0 : get_execution_plan g target ord =
        match staticOrder (restrictedItems g (requiredSubgraph g target) ord) with
        | .error c => .error ("检测到循环依赖: " ++ String.intercalate " -> " c)
        | .ok sortedKeys =>
          .ok (sortedKeys.filterMap fun k => g.find? (fun n => n.key_path == k)) := rfl
    rw [h0, ← hrel, ← hitems, hr]
  refine ⟨⟨?_, ?_⟩, ?_, ?_⟩
  · intro hcyc
    obtain ⟨msg, hmsg⟩ := hcycle_err hcyc
    exact ⟨_, by rw [hplan_eq _ hmsg]⟩
  · rintro ⟨msg, hmsg⟩
    match hso : staticOrder items with
    | .ok keys =>
      rw [hplan_eq _ hso] at hmsg
      exact Except.noConfusion hmsg
    | .error c =>
      obtain ⟨hcyc, hmem⟩ := herr_cycle c hso
      exact ⟨c, hcyc, hmem⟩
  · intro msg hmsg
    match hso : staticOrder items with
    | .ok keys =>
      rw [hplan_eq _ hso] at hmsg
      exact Except.noConfusion hmsg
    | .error c =>
      obtain ⟨hcyc, hmem⟩ := herr_cycle c hso
      rw [hplan_eq _ hso] at hmsg
      exact ⟨c, hcyc, hmem, (Except.error.inj hmsg).symm⟩
  · intro hnc
    match hso : staticOrder items with
    | .ok keys => exact ⟨_, by rw [hplan_eq _ hso]⟩
    | .error c => exact absurd ⟨c, (herr_cycle c hso).1, (herr_cycle c hso).2⟩ hnc

/-- Witness for C5 at the two-node cyclic document. -/
theorem c5_cycle_detection_witness :
    EnumOf ["a", "b"] (requiredSubgraph (buildGraph docCyc) none) ∧
    ∃ msg, get_execution_plan (buildGraph docCyc) none ["a", "b"] = .error msg := by
  have hsub : requiredSubgraph (buildGraph docCyc) none = ["a", "b"] := by decide
  have henum : EnumOf ["a", "b"] (requiredSubgraph (buildGraph docCyc) none) := by
    rw [hsub]
    exact ⟨by decide, fun k hk => hk, fun k hk => hk⟩
  refine ⟨henum, (c5_cycle_detection docCyc none ["a", "b"] henum).1.mp ?_⟩
  refine ⟨["a", "b", "a"], ⟨by decide, by decide, ?_⟩, by decide⟩
  rw [List.chain'_cons, List.chain'_cons]
  exact ⟨by decide, by decide, List.chain'_singleton _⟩

/-- C1 (counterexample to the stated consequence clause): with the
enumeration order `cordB`, `NS.user` runs before `NS.inner.x`, yet its
template reads `NS.inner.x` through namespace scope injection; the value
it observes is not the final one, refuting the claim that every key a
node's template can reference within the relevant set is already fully
resolved when the node runs. -/
theorem c1_refuted : ¬ C1Stated trivialWorld none cdoc none cordB := by
  intro h
  have h2 := h planB (by rfl)
  have hres := h2.2.2.2
  have hx := hres.1 ["NS", "inner", "x"] (by decide) (by decide)
  exact absurd (congrArg pvalStr hx) (by decide)

theorem filterMap_find_keys (g : List Node) (ks : List String)
    (hks : ∀ k ∈ ks, k ∈ nodeKeys g) :
    (ks.filterMap fun k => g.find? (fun n => n.key_path == k)).map (·.key_path) = ks := by
  induction ks with
  | nil => rfl
  | cons k t ih =>
    rw [List.filterMap_cons]
    have hk : k ∈ nodeKeys g := hks k (List.mem_cons_self _ _)
    have hsome : (g.find? (fun n => n.key_path == k)).isSome :=
      (find_key_isSome_iff g k).mpr hk
    match hfind : g.find? (fun n => n.key_path == k) with
    | none => rw [hfind] at hsome; exact absurd hsome (by simp)
    | some n =>
      rw [hfind]
      have hnk : n.key_path = k := by simpa using List.find?_some hfind
      rw [List.map_cons, hnk, ih (fun x hx => hks x (List.mem_cons_of_mem _ hx))]

theorem mem_filterMap_find (g : List Node) (ks : List String) (n : Node)
    (hn : n ∈ ks.filterMap fun k => g.find? (fun m => m.key_path == k)) :
    g.find? (fun m => m.key_path == n.key_path) = some n := by
  obtain ⟨k, _, hfind⟩ := List.mem_filterMap.mp hn
  have hnk : n.key_path = k := by simpa using List.find?_some hfind
  rw [hnk]
  exact hfind

theorem gep_ok_topological (doc : VEntries) (target : Option (List String))
    (ord : List String)
    (hord : EnumOf ord (requiredSubgraph (buildGraph doc) target)) :
    ∀ plan, get_execution_plan (buildGraph doc) target ord = .ok plan →
      (plan.map (·.key_path)).Nodup ∧
      (∀ k, k ∈ plan.map (·.key_path) ↔ k ∈ requiredSubgraph (buildGraph doc) target) ∧
      (∀ n ∈ plan, ∀ d ∈ n.dependencies,
        d ∈ requiredSubgraph (buildGraph doc) target →
        precedes (plan.map (·.key_path)) d n.key_path) := by
  set g := buildGraph doc with hg
  set relevant := requiredSubgraph g target with hrel
  set items := restrictedItems g relevant ord with hitems
  intro plan hplan
  have hF := restrictedItems_F g relevant ord
  have hKeysRel : ∀ x, x ∈ items.map (·.1) ↔ x ∈ relevant := by
    intro x
    rw [hitems, mem_restrictedItems_keys]
    constructor
    · rintro ⟨hxo, _⟩
      exact hord.2.1 x hxo
    · intro hxr
      exact ⟨hord.2.2 x hxr, requiredSubgraph_subset doc target x hxr⟩
  have h0 : get_execution_plan g target ord =
      match staticOrder (restrictedItems g (requiredSubgraph g target) ord) with
      | .error c => .error ("检测到循环依赖: " ++ String.intercalate " -> " c)
      | .ok sortedKeys =>
        .ok (sortedKeys.filterMap fun k => g.find? (fun n => n.key_path == k)) := rfl
  rw [h0, ← hrel, ← hitems] at hplan
  match hso : staticOrder items with
  | .error c =>
    rw [hso] at hplan
    exact Except.noConfusion hplan
  | .ok sortedKeys =>
    rw [hso] at hplan
    have hpl : plan = sortedKeys.filterMap fun k => g.find? (fun n => n.key_path == k) :=
      (Except.ok.inj hplan).symm
    have hok : kahnRunF (items.length + 1) [] items = .ok sortedKeys := hso
    have hndi : (items.map (·.1)).Nodup := by
      rw [hitems, restrictedItems_keys]
      exact hord.1.sublist (List.filter_sublist ord)
    obtain ⟨hnd, hiff, hdeps⟩ := kahnRunF_ok (restrictedDeps g relevant)
      (items.length + 1) [] items sortedKeys (Nat.lt_succ_self _) hF hndi hok
    have hkeys : plan.map (·.key_path) = sortedKeys := by
      rw [hpl]
      apply filterMap_find_keys
      intro k hk
      have := (hKeysRel k).mp ((hiff k).mp hk)
      exact requiredSubgraph_subset doc target k this
    refine ⟨by rw [hkeys]; exact hnd, ?_, ?_⟩
    · intro k
      rw [hkeys, hiff]
      exact hKeysRel k
    · intro n hn d hd hdrel
      have hfind := mem_filterMap_find g sortedKeys n (hpl ▸ hn)
      have hdn : depsOf g n.key_path = n.dependencies := depsOf_eq_of_find g _ n hfind
      have hkin : n.key_path ∈ sortedKeys := by
        rw [← hkeys]
        exact List.mem_map.mpr ⟨n, hn, rfl⟩
      have hdr : d ∈ restrictedDeps g relevant n.key_path := by
        unfold restrictedDeps
        rw [hdn]
        exact List.mem_filter.mpr ⟨hd, by simpa using hdrel⟩
      rcases hdeps n.key_path hkin d hdr with hem | hp
      · exact absurd hem (List.not_mem_nil d)
      · rw [hkeys]
        exact hp

/-- C1 (corrected): with `ord` an enumeration of the relevant set, every
relevant key appears exactly once in the compiled plan, and every stored
dependency of a node that lies in the relevant set appears at an earlier
position.  (The claim's consequence clause — that every key a node's
template can reference is already resolved when the node runs — is
refuted by `c1_refuted`.) -/
theorem c1_plan_topological (doc : VEntries) (target : Option (List String))
    (ord : List String)
    (hord : EnumOf ord (requiredSubgraph (buildGraph doc) target)) :
    ∀ plan, get_execution_plan (buildGraph doc) target ord = .ok plan →
      (plan.map (·.key_path)).Nodup ∧
      (∀ k, k ∈ plan.map (·.key_path) ↔ k ∈ requiredSubgraph (buildGraph doc) target) ∧
      (∀ n ∈ plan, ∀ d ∈ n.dependencies,
        d ∈ requiredSubgraph (buildGraph doc) target →
        precedes (plan.map (·.key_path)) d n.key_path) :=
  gep_ok_topological doc target ord hord

/-- Witness for the corrected C1 at `cdoc` with order `cordA`. -/
theorem c1_plan_topological_witness :
    (planA.map (·.key_path)).Nodup ∧
    (∀ k, k ∈ planA.map (·.key_path) ↔ k ∈ requiredSubgraph (buildGraph cdoc) none) ∧
    (∀ n ∈ planA, ∀ d ∈ n.dependencies,
      d ∈ requiredSubgraph (buildGraph cdoc) none →
      precedes (planA.map (·.key_path)) d n.key_path) := by
  have hsub : requiredSubgraph (buildGraph cdoc) none = ["NS.inner.x", "NS.user"] := by
    decide
  have henum : EnumOf cordA (requiredSubgraph (buildGraph cdoc) none) := by
    rw [hsub]
    exact ⟨by decide, fun k hk => hk, fun k hk => hk⟩
  exact c1_plan_topological cdoc none cordA henum planA (by rfl)

/-- Plan compilation fails exactly when the restricted dependency graph
has a cycle — in particular, independently of the enumeration order. -/
theorem gep_error_iff_cycle (doc : VEntries) (target : Option (List String))
    (ord : List String)
    (hord : EnumOf ord (requiredSubgraph (buildGraph doc) target)) :
    (∃ msg, get_execution_plan (buildGraph doc) target ord = .error msg) ↔
    (∃ cyc, IsDepCycle (restrictedDeps (buildGraph doc)
        (requiredSubgraph (buildGraph doc) target)) cyc ∧
      ∀ x ∈ cyc, x ∈ requiredSubgraph (buildGraph doc) target) := by
  set g := buildGraph doc with hg
  set relevant := requiredSubgraph g target with hrel
  set items := restrictedItems g relevant ord with hitems
  have hF := restrictedItems_F g relevant ord
  have hKeysRel : ∀ x, x ∈ items.map (·.1) ↔ x ∈ relevant := by
    intro x
    rw [hitems, mem_restrictedItems_keys]
    constructor
    · rintro ⟨hxo, _⟩
      exact hord.2.1 x hxo
    · intro hxr
      exact ⟨hord.2.2 x hxr, requiredSubgraph_subset doc target x hxr⟩
  have h0 : get_execution_plan g target ord =
      match staticOrder (restrictedItems g (requiredSubgraph g target) ord) with
      | .error c => .error ("检测到循环依赖: " ++ String.intercalate " -> " c)
      | .ok sortedKeys =>
        .ok (sortedKeys.filterMap fun k => g.find? (fun n => n.key_path == k)) := rfl
  constructor
  · rintro ⟨msg, hmsg⟩
    rw [h0, ← hrel, ← hitems] at hmsg
    match hso : staticOrder items with
    | .ok keys =>
      rw [hso] at hmsg
      exact Except.noConfusion hmsg
    | .error c =>
      obtain ⟨hcyc, hmem⟩ := kahnRunF_error (restrictedDeps g relevant)
        (items.length + 1) [] items c (Nat.lt_succ_self _) hF
        (by
          intro it hit d hd _
          rw [hF it hit] at hd
          unfold restrictedDeps at hd
          exact (hKeysRel d).mpr (by simpa using (List.mem_filter.mp hd).2)) hso
      exact ⟨c, hcyc, fun x hx => (hKeysRel x).mp (hmem x hx)⟩
  · rintro ⟨cyc, hcyc, hmem⟩
    obtain ⟨c, hc⟩ := kahnRunF_cycle (restrictedDeps g relevant) cyc hcyc
      (items.length + 1) [] items (Nat.lt_succ_self _) hF
      (fun x hx => (hKeysRel x).mpr (hmem x hx)) (by simp)
    have hso : staticOrder items = Except.error c := hc
    refine ⟨"检测到循环依赖: " ++ String.intercalate " -> " c, ?_⟩
    rw [h0, ← hrel, ← hitems, hso]

/-- C8 (corrected): for a fixed document and requirement set, whether the
pipeline fails, and the set of plan keys, do not depend on the iteration
order of the relevant-key set, and the pipeline is a function of that
order; but the final context itself can differ between two legitimate
iteration orders (`c8_determinism_refuted`), so run-to-run determinism
as claimed does not hold. -/
theorem c8_order_dependence (w : World) (repoRoot : Option String)
    (doc : VEntries) (target : Option (List String)) (ordA ordB : List String)
    (hA : EnumOf ordA (requiredSubgraph (buildGraph doc) target))
    (hB : EnumOf ordB (requiredSubgraph (buildGraph doc) target)) :
    ((∃ e, pipelineCtx w repoRoot doc target ordA = .error e) ↔
      (∃ e, pipelineCtx w repoRoot doc target ordB = .error e)) ∧
    (∀ planA planB, get_execution_plan (buildGraph doc) target ordA = .ok planA →
      get_execution_plan (buildGraph doc) target ordB = .ok planB →
      List.Perm (planA.map (·.key_path)) (planB.map (·.key_path))) ∧
    (ordA = ordB →
      pipelineCtx w repoRoot doc target ordA = pipelineCtx w repoRoot doc target ordB) := by
  refine ⟨?_, ?_, fun h => by rw [h]⟩
  · have hpe : ∀ ord, (∃ e, pipelineCtx w repoRoot doc target ord = .error e) ↔
        (∃ msg, get_execution_plan (buildGraph doc) target ord = .error msg) := by
      intro ord
      unfold pipelineCtx
      match hg : get_execution_plan (buildGraph doc) target ord with
      | .error e => exact ⟨fun _ => ⟨e, rfl⟩, fun _ => ⟨e, rfl⟩⟩
      | .ok plan =>
        constructor
        · rintro ⟨e, he⟩
          exact Except.noConfusion he
        · rintro ⟨msg, hmsg⟩
          exact Except.noConfusion hmsg
    rw [hpe ordA, hpe ordB, gep_error_iff_cycle doc target ordA hA,
      gep_error_iff_cycle doc target ordB hB]
  · intro planA planB hpA hpB
    obtain ⟨hndA, hiffA, _⟩ := gep_ok_topological doc target ordA hA planA hpA
    obtain ⟨hndB, hiffB, _⟩ := gep_ok_topological doc target ordB hB planB hpB
    rw [List.perm_ext_iff_of_nodup hndA hndB]
    intro a
    rw [hiffA, hiffB]

/-- Witness for the corrected C8 at `cdoc` with orders `cordA`, `cordB`. -/
theorem c8_order_dependence_witness :
    List.Perm (planA.map (·.key_path)) (planB.map (·.key_path)) := by
  have hsub : requiredSubgraph (buildGraph cdoc) none = ["NS.inner.x", "NS.user"] := by
    decide
  have henumA : EnumOf cordA (requiredSubgraph (buildGraph cdoc) none) := by
    rw [hsub]
    exact ⟨by decide, fun k hk => hk, fun k hk => hk⟩
  have henumB : EnumOf cordB (requiredSubgraph (buildGraph cdoc) none) := by
    rw [hsub]
    refine ⟨by decide, fun k hk => ?_, fun k hk => ?_⟩ <;>
      · simp only [cordB, List.mem_cons, List.not_mem_nil, or_false] at hk ⊢
        tauto
  exact (c8_order_dependence trivialWorld none cdoc none cordA cordB henumA henumB).2.1
    planA planB (by rfl) (by rfl)

/-- C8 (counterexample): both `cordA` and `cordB` enumerate the relevant
set of `cdoc`, yet the two runs produce different final contexts — the
plan order is not a function of the document and requirement set alone. -/
theorem c8_determinism_refuted :
    EnumOf cordA (requiredSubgraph (buildGraph cdoc) none) ∧
    EnumOf cordB (requiredSubgraph (buildGraph cdoc) none) ∧
    pipelineCtx trivialWorld none cdoc none cordA ≠
      pipelineCtx trivialWorld none cdoc none cordB := by
  have hsub : requiredSubgraph (buildGraph cdoc) none = ["NS.inner.x", "NS.user"] := by
    decide
  refine ⟨?_, ?_, fun h => ?_⟩
  · rw [hsub]
    exact ⟨by decide, fun k hk => hk, fun k hk => hk⟩
  · rw [hsub]
    refine ⟨by decide, fun k hk => ?_, fun k hk => ?_⟩ <;>
      · simp only [cordB, List.mem_cons, List.not_mem_nil, or_false] at hk ⊢
        tauto
  · exact absurd (congrArg (fun r => peekStr r ["NS", "user"]) h) (by decide)

theorem hrefsBelow_mono (d : HDict) (m m' : Nat) (h : hrefsBelow d m) (hm : m ≤ m') :
    hrefsBelow d m' :=
  fun kv hkv b hb => lt_of_lt_of_le (h kv hkv b hb) hm

theorem storeBelow_mono (st : Store) (m m' : Nat) (h : storeBelow st m) (hm : m ≤ m') :
    storeBelow st m' :=
  fun e he => ⟨lt_of_lt_of_le (h e he).1 hm, hrefsBelow_mono e.2 m m' (h e he).2 hm⟩

theorem lookupStore_update_ne (st : Store) (a c : Nat) (d : HDict) (h : a ≠ c) :
    lookupStore (updateStore st a d) c = lookupStore st c := by
  unfold lookupStore updateStore
  congr 1
  induction st with
  | nil => rfl
  | cons e t ih =>
    rw [List.map_cons]
    by_cases he : e.1 = a
    · rw [if_pos (by simpa using he)]
      rw [List.find?_cons_of_neg _ (by simpa using h),
        List.find?_cons_of_neg _ (by simp [he]; exact h)]
      exact ih
    · rw [if_neg (by simpa using he)]
      by_cases hc : e.1 = c
      · rw [List.find?_cons_of_pos _ (by simpa using hc),
          List.find?_cons_of_pos _ (by simpa using hc)]
      · rw [List.find?_cons_of_neg _ (by simpa using hc),
          List.find?_cons_of_neg _ (by simpa using hc)]
        exact ih

theorem lookupStore_append_ne (st : Store) (x c : Nat) (d : HDict) (h : c ≠ x) :
    lookupStore (st ++ [(x, d)]) c = lookupStore st c := by
  unfold lookupStore
  rw [List.find?_append]
  match hf : st.find? (fun e => e.1 == c) with
  | some e =>
    rw [hf]
    simp [Option.or]
  | none =>
    rw [hf, List.find?_cons_of_neg _ (by simpa using Ne.symm h)]
    rfl

theorem lookupStore_append_fresh (st : Store) (x : Nat) (d : HDict)
    (h : ∀ e ∈ st, e.1 ≠ x) :
    lookupStore (st ++ [(x, d)]) x = d := by
  unfold lookupStore
  rw [List.find?_append]
  have hf : st.find? (fun e => e.1 == x) = none := by
    rw [List.find?_eq_none]
    intro e he
    simpa using h e he
  rw [hf, List.find?_cons_of_pos _ (by simp)]
  rfl

theorem lookupStore_update_self (st : Store) (a : Nat) (d : HDict)
    (h : (st.find? (fun e => e.1 == a)).isSome) :
    lookupStore (updateStore st a d) a = d := by
  unfold lookupStore updateStore
  induction st with
  | nil => simp [List.find?] at h
  | cons e t ih =>
    rw [List.map_cons]
    by_cases he : e.1 = a
    · rw [if_pos (by simpa using he), List.find?_cons_of_pos _ (by simp)]
    · rw [if_neg (by simpa using he), List.find?_cons_of_neg _ (by simpa using he)]
      rw [List.find?_cons_of_neg _ (by simpa using he)] at h
      exact ih h

theorem lookupStore_mem (st : Store) (a : Nat) (kv : String × HVal)
    (h : kv ∈ lookupStore st a) : ∃ e ∈ st, kv ∈ e.2 := by
  unfold lookupStore at h
  match hf : st.find? (fun e => e.1 == a) with
  | none => rw [hf] at h; exact absurd h (List.not_mem_nil kv)
  | some e =>
    rw [hf] at h
    exact ⟨e, List.mem_of_find?_eq_some hf, h⟩

theorem lookupHD_mem (d : HDict) (k : String) (hv : HVal)
    (h : lookupHD d k = some hv) : ∃ kv ∈ d, kv.2 = hv := by
  unfold lookupHD at h
  match hf : d.find? (fun kv => kv.1 == k) with
  | none => rw [hf] at h; exact Option.noConfusion h
  | some kv =>
    rw [hf] at h
    exact ⟨kv, List.mem_of_find?_eq_some hf, by simpa using h⟩

theorem setHKey_mem (d : HDict) (k : String) (v : HVal) (kv : String × HVal)
    (h : kv ∈ setHKey d k v) : kv ∈ d ∨ kv = (k, v) := by
  unfold setHKey at h
  by_cases hany : d.any (fun kv => kv.1 == k)
  · rw [if_pos hany] at h
    obtain ⟨kv0, hkv0, heq⟩ := List.mem_map.mp h
    by_cases hk : kv0.1 = k
    · right
      rw [← heq, if_pos (by simpa using hk)]
    · left
      rw [← heq, if_neg (by simpa using hk)]
      exact hkv0
  · rw [if_neg hany] at h
    rcases List.mem_append.mp h with h1 | h1
    · exact Or.inl h1
    · exact Or.inr (by simpa using h1)

theorem lookupHD_setHKey_ne (d : HDict) (k k' : String) (v : HVal) (h : k' ≠ k) :
    lookupHD (setHKey d k v) k' = lookupHD d k' := by
  unfold lookupHD setHKey
  by_cases hany : d.any (fun kv => kv.1 == k)
  · rw [if_pos hany]
    congr 1
    clear hany
    induction d with
    | nil => rfl
    | cons kv t ih =>
      rw [List.map_cons]
      by_cases hk : kv.1 = k
      · rw [if_pos (by simpa using hk),
          List.find?_cons_of_neg _ (by simpa using Ne.symm h),
          List.find?_cons_of_neg _ (by simp [hk]; exact Ne.symm h)]
        exact ih
      · rw [if_neg (by simpa using hk)]
        by_cases hk' : kv.1 = k'
        · rw [List.find?_cons_of_pos _ (by simpa using hk'),
            List.find?_cons_of_pos _ (by simpa using hk')]
        · rw [List.find?_cons_of_neg _ (by simpa using hk'),
            List.find?_cons_of_neg _ (by simpa using hk')]
          exact ih
  · rw [if_neg hany]
    congr 1
    rw [List.find?_append]
    match hf : d.find? (fun kv => kv.1 == k') with
    | some kv =>
      rw [hf]
      simp [Option.or]
    | none =>
      rw [hf, List.find?_cons_of_neg _ (by simpa using Ne.symm h)]
      rfl

mutual
theorem loadVal_below (v : Val) : ∀ st next, storeBelow st next →
    next ≤ (loadVal v st next).2.2 ∧
    storeBelow (loadVal v st next).2.1 (loadVal v st next).2.2 ∧
    (∀ b, (loadVal v st next).1 = HVal.href b → b < (loadVal v st next).2.2) := by
  match v with
  | .str marked pieces =>
    exact fun st next h => ⟨le_refl _, h, fun b hb => HVal.noConfusion hb⟩
  | .num n =>
    exact fun st next h => ⟨le_refl _, h, fun b hb => HVal.noConfusion hb⟩
  | .dict es =>
    intro st next h
    obtain ⟨hle, hsb, hhb⟩ := loadEntries_below es st next h
    refine ⟨?_, ?_, ?_⟩
    · show next ≤ (loadEntries es st next).2.2 + 1
      omega
    · show storeBelow ((loadEntries es st next).2.1 ++
        [((loadEntries es st next).2.2, (loadEntries es st next).1)])
        ((loadEntries es st next).2.2 + 1)
      intro e he
      rcases List.mem_append.mp he with h1 | h1
      · obtain ⟨h2, h3⟩ := hsb e h1
        exact ⟨by omega, hrefsBelow_mono _ _ _ h3 (Nat.le_succ _)⟩
      · have he2 : e = ((loadEntries es st next).2.2, (loadEntries es st next).1) := by
          simpa using h1
        subst he2
        exact ⟨Nat.lt_succ_self _, hrefsBelow_mono _ _ _ hhb (Nat.le_succ _)⟩
    · intro b hb
      have hb2 : HVal.href (loadEntries es st next).2.2 = HVal.href b := hb
      have : (loadEntries es st next).2.2 = b := by simpa using hb2
      show b < (loadEntries es st next).2.2 + 1
      omega

theorem loadEntries_below (es : VEntries) : ∀ st next, storeBelow st next →
    next ≤ (loadEntries es st next).2.2 ∧
    storeBelow (loadEntries es st next).2.1 (loadEntries es st next).2.2 ∧
    hrefsBelow (loadEntries es st next).1 (loadEntries es st next).2.2 := by
  match es with
  | .nil =>
    exact fun st next h => ⟨le_refl _, h, fun kv hkv => absurd hkv (List.not_mem_nil kv)⟩
  | .cons k v rest =>
    intro st next h
    obtain ⟨hle1, hsb1, hhv1⟩ := loadVal_below v st next h
    obtain ⟨hle2, hsb2, hhb2⟩ := loadEntries_below rest (loadVal v st next).2.1
      (loadVal v st next).2.2 hsb1
    refine ⟨?_, ?_, ?_⟩
    · show next ≤
        (loadEntries rest (loadVal v st next).2.1 (loadVal v st next).2.2).2.2
      omega
    · show storeBelow
        (loadEntries rest (loadVal v st next).2.1 (loadVal v st next).2.2).2.1
        (loadEntries rest (loadVal v st next).2.1 (loadVal v st next).2.2).2.2
      exact hsb2
    · show hrefsBelow ((k, (loadVal v st next).1) ::
        (loadEntries rest (loadVal v st next).2.1 (loadVal v st next).2.2).1)
        (loadEntries rest (loadVal v st next).2.1 (loadVal v st next).2.2).2.2
      intro kv hkv b hb
      rcases List.mem_cons.mp hkv with h1 | h1
      · subst h1
        have := hhv1 b hb
        omega
      · exact hhb2 kv h1 b hb
end

theorem loadEntries_shape (es : VEntries) : ∀ st next k,
    (match lookupVE es k with
     | some (.dict _) => ∃ b, lookupHD (loadEntries es st next).1 k = some (HVal.href b)
     | some _ => ∃ hv, lookupHD (loadEntries es st next).1 k = some hv ∧
         ∀ b, hv ≠ HVal.href b
     | none => lookupHD (loadEntries es st next).1 k = none) := by
  match es with
  | .nil =>
    intro st next k
    simp [lookupVE, loadEntries, lookupHD, List.find?]
  | .cons k0 v rest =>
    intro st next k
    by_cases hk : k0 = k
    · subst hk
      rw [show lookupVE (.cons k0 v rest) k0 = some v by simp [lookupVE]]
      have hfind : lookupHD (loadEntries (.cons k0 v rest) st next).1 k0 =
          some (loadVal v st next).1 := by
        show Option.map (fun x => x.2) (List.find? (fun kv => kv.1 == k0)
          ((k0, (loadVal v st next).1) ::
            (loadEntries rest (loadVal v st next).2.1 (loadVal v st next).2.2).1)) =
          some (loadVal v st next).1
        rw [List.find?_cons_of_pos _ (by simp)]
        rfl
      match v with
      | .str marked pieces =>
        exact ⟨_, hfind, fun b hb => HVal.noConfusion hb⟩
      | .num n =>
        exact ⟨_, hfind, fun b hb => HVal.noConfusion hb⟩
      | .dict sub =>
        exact ⟨_, hfind⟩
    · have hlv : lookupVE (.cons k0 v rest) k = lookupVE rest k := by
        simp [lookupVE, hk]
      have hld : lookupHD (loadEntries (.cons k0 v rest) st next).1 k =
          lookupHD (loadEntries rest (loadVal v st next).2.1 (loadVal v st next).2.2).1 k := by
        show Option.map (fun x => x.2) (List.find? (fun kv => kv.1 == k)
          ((k0, (loadVal v st next).1) ::
            (loadEntries rest (loadVal v st next).2.1 (loadVal v st next).2.2).1)) = _
        rw [List.find?_cons_of_neg _ (by simpa using hk)]
        rfl
      rw [hlv, hld]
      exact loadEntries_shape rest (loadVal v st next).2.1 (loadVal v st next).2.2 k

theorem noRefTo_update_set (st : Store) (c a : Nat) (k : String) (w : HVal)
    (h : noRefTo st c) (hw : ∀ b, w = HVal.href b → b ≠ c) :
    noRefTo (updateStore st a (setHKey (lookupStore st a) k w)) c := by
  intro e he kv hkv b hb
  obtain ⟨e0, he0, heq⟩ := List.mem_map.mp he
  by_cases ha : (e0.1 == a) = true
  · rw [if_pos ha] at heq
    rw [← heq] at hkv
    rcases setHKey_mem _ _ _ _ hkv with h1 | h1
    · obtain ⟨e1, he1, hm⟩ := lookupStore_mem st a kv h1
      exact h e1 he1 kv hm b hb
    · subst h1
      exact hw b hb
  · rw [if_neg ha] at heq
    rw [← heq] at hkv
    exact h e0 he0 kv hkv b hb

theorem noRefTo_append_empty (st : Store) (c x : Nat) (h : noRefTo st c) :
    noRefTo (st ++ [(x, ([] : HDict))]) c := by
  intro e he kv hkv b hb
  rcases List.mem_append.mp he with h1 | h1
  · exact h e h1 kv hkv b hb
  · have he2 : e = (x, ([] : HDict)) := by simpa using h1
    subst he2
    exact absurd hkv (List.not_mem_nil kv)

theorem lookupHD_isSome_find (st : Store) (a : Nat) (k' : String) (hv : HVal)
    (h : lookupHD (lookupStore st a) k' = some hv) :
    (st.find? (fun e => e.1 == a)).isSome = true := by
  match hf : st.find? (fun e => e.1 == a) with
  | some e => rw [hf]; rfl
  | none =>
    have he : lookupStore st a = [] := by unfold lookupStore; rw [hf]
    rw [he] at h
    exact Option.noConfusion (show (none : Option HVal) = some hv from h)

theorem heapSetNested_keep (c : Nat) :
    ∀ segs (st : Store) (a : Nat) (v : HVal) (nx : Nat),
      noRefTo st c → c < nx → (∀ b, v = HVal.href b → b ≠ c) →
      noRefTo (heapSetNested st a segs v nx).1 c ∧
      c < (heapSetNested st a segs v nx).2 ∧
      (a ≠ c → lookupStore (heapSetNested st a segs v nx).1 c = lookupStore st c) := by
  intro segs
  induction segs with
  | nil => exact fun st a v nx h hc _ => ⟨h, hc, fun _ => rfl⟩
  | cons k rest ih =>
    match rest with
    | [] =>
      intro st a v nx h hc hv
      refine ⟨noRefTo_update_set st c a k v h hv, hc, fun hac => ?_⟩
      exact lookupStore_update_ne st a c _ hac
    | k2 :: rest2 =>
      intro st a v nx h hc hv
      have heq : heapSetNested st a (k :: k2 :: rest2) v nx =
          match lookupHD (lookupStore st a) k with
          | some (.href b) => heapSetNested st b (k2 :: rest2) v nx
          | some _ => (st, nx)
          | none =>
            heapSetNested
              (updateStore st a (setHKey (lookupStore st a) k (.href nx)) ++ [(nx, [])])
              nx (k2 :: rest2) v (nx + 1) := rfl
      match hl : lookupHD (lookupStore st a) k with
      | some (HVal.href b) =>
        have hres : heapSetNested st a (k :: k2 :: rest2) v nx =
            heapSetNested st b (k2 :: rest2) v nx := by rw [heq, hl]
        rw [hres]
        have hbne : b ≠ c := by
          obtain ⟨kv, hkv, hkv2⟩ := lookupHD_mem _ _ _ hl
          obtain ⟨e, he, hm⟩ := lookupStore_mem st a kv hkv
          exact h e he kv hm b hkv2
        obtain ⟨h1, h2, h3⟩ := ih st b v nx h hc hv
        exact ⟨h1, h2, fun _ => h3 hbne⟩
      | some (HVal.hs s) =>
        have hres : heapSetNested st a (k :: k2 :: rest2) v nx = (st, nx) := by
          rw [heq, hl]
        rw [hres]
        exact ⟨h, hc, fun _ => rfl⟩
      | some (HVal.hn n) =>
        have hres : heapSetNested st a (k :: k2 :: rest2) v nx = (st, nx) := by
          rw [heq, hl]
        rw [hres]
        exact ⟨h, hc, fun _ => rfl⟩
      | none =>
        have hres : heapSetNested st a (k :: k2 :: rest2) v nx =
            heapSetNested
              (updateStore st a (setHKey (lookupStore st a) k (.href nx)) ++ [(nx, [])])
              nx (k2 :: rest2) v (nx + 1) := by rw [heq, hl]
        rw [hres]
        have hst1 : noRefTo
            (updateStore st a (setHKey (lookupStore st a) k (.href nx)) ++ [(nx, [])]) c := by
          apply noRefTo_append_empty
          exact noRefTo_update_set st c a k (.href nx) h
            (fun b hb => by
              have : nx = b := by simpa using hb
              omega)
        obtain ⟨h1, h2, h3⟩ := ih _ nx v (nx + 1) hst1 (by omega) hv
        refine ⟨h1, h2, fun hac => ?_⟩
        rw [h3 (by omega)]
        rw [lookupStore_append_ne _ _ _ _ (by omega)]
        exact lookupStore_update_ne st a c _ hac

theorem heapSetNested_keep_href :
    ∀ segs (st : Store) (a : Nat) (v : HVal) (nx : Nat) (k' : String) (b : Nat),
      lookupHD (lookupStore st a) k' = some (HVal.href b) →
      segs ≠ [k'] →
      noRefTo st a →
      a < nx →
      (∀ b0, v = HVal.href b0 → b0 ≠ a) →
      lookupHD (lookupStore (heapSetNested st a segs v nx).1 a) k' =
        some (HVal.href b) := by
  intro segs
  induction segs with
  | nil => exact fun st a v nx k' b hk' _ _ _ _ => hk'
  | cons k rest ih =>
    match rest with
    | [] =>
      intro st a v nx k' b hk' hne hnr hanx hv
      have hkk : k' ≠ k := by
        intro he
        exact hne (by rw [he])
      have hself : lookupStore
          (updateStore st a (setHKey (lookupStore st a) k v)) a =
          setHKey (lookupStore st a) k v :=
        lookupStore_update_self st a _ (lookupHD_isSome_find st a k' _ hk')
      show lookupHD (lookupStore
        (updateStore st a (setHKey (lookupStore st a) k v)) a) k' =
        some (HVal.href b)
      rw [hself, lookupHD_setHKey_ne _ _ _ _ hkk]
      exact hk'
    | k2 :: rest2 =>
      intro st a v nx k' b hk' hne hnr hanx hv
      have heq : heapSetNested st a (k :: k2 :: rest2) v nx =
          match lookupHD (lookupStore st a) k with
          | some (.href b) => heapSetNested st b (k2 :: rest2) v nx
          | some _ => (st, nx)
          | none =>
            heapSetNested
              (updateStore st a (setHKey (lookupStore st a) k (.href nx)) ++ [(nx, [])])
              nx (k2 :: rest2) v (nx + 1) := rfl
      match hl : lookupHD (lookupStore st a) k with
      | some (HVal.href b2) =>
        have hres : heapSetNested st a (k :: k2 :: rest2) v nx =
            heapSetNested st b2 (k2 :: rest2) v nx := by rw [heq, hl]
        rw [hres]
        have hb2ne : b2 ≠ a := by
          obtain ⟨kv, hkv, hkv2⟩ := lookupHD_mem _ _ _ hl
          obtain ⟨e, he, hm⟩ := lookupStore_mem st a kv hkv
          exact hnr e he kv hm b2 hkv2
        obtain ⟨_, _, h3⟩ := heapSetNested_keep a (k2 :: rest2) st b2 v nx hnr hanx hv
        rw [h3 hb2ne]
        exact hk'
      | some (HVal.hs s) =>
        have hres : heapSetNested st a (k :: k2 :: rest2) v nx = (st, nx) := by
          rw [heq, hl]
        rw [hres]
        exact hk'
      | some (HVal.hn n) =>
        have hres : heapSetNested st a (k :: k2 :: rest2) v nx = (st, nx) := by
          rw [heq, hl]
        rw [hres]
        exact hk'
      | none =>
        have hres : heapSetNested st a (k :: k2 :: rest2) v nx =
            heapSetNested
              (updateStore st a (setHKey (lookupStore st a) k (.href nx)) ++ [(nx, [])])
              nx (k2 :: rest2) v (nx + 1) := by rw [heq, hl]
        rw [hres]
        have hkk : k' ≠ k := by
          intro he
          rw [← he, hk'] at hl
          exact Option.noConfusion hl
        have hst1 : noRefTo
            (updateStore st a (setHKey (lookupStore st a) k (.href nx)) ++ [(nx, [])]) a := by
          apply noRefTo_append_empty
          exact noRefTo_update_set st a a k (.href nx) hnr
            (fun b0 hb0 => by
              have : nx = b0 := by simpa using hb0
              omega)
        obtain ⟨_, _, h3⟩ := heapSetNested_keep a (k2 :: rest2) _ nx v (nx + 1) hst1
          (by omega) hv
        rw [h3 (by omega)]
        rw [lookupStore_append_ne _ _ _ _ (by omega)]
        have hself : lookupStore
            (updateStore st a (setHKey (lookupStore st a) k (.href nx))) a =
            setHKey (lookupStore st a) k (.href nx) :=
          lookupStore_update_self st a _ (lookupHD_isSome_find st a k' _ hk')
        rw [hself, lookupHD_setHKey_ne _ _ _ _ hkk]
        exact hk'

theorem hvalOfScalar_not_href (p : PVal) (b : Nat) : hvalOfScalar p ≠ HVal.href b := by
  match p with
  | .s v => exact fun h => HVal.noConfusion h
  | .n n => exact fun h => HVal.noConfusion h
  | .dict es => exact fun h => HVal.noConfusion h

theorem segsFit_single_not_href (doc : VEntries) (d0 : HDict) (hshape : shapeOf doc d0)
    (k : String) (hfit : segsFit doc [k] = true) (b : Nat)
    (hk : lookupHD d0 k = some (HVal.href b)) : False := by
  have hs := hshape k
  unfold segsFit at hfit
  match hlv : lookupVE doc k with
  | none => rw [hlv] at hfit; exact Bool.noConfusion hfit
  | some (.dict sub) => rw [hlv] at hfit; exact Bool.noConfusion hfit
  | some (.str marked pieces) =>
    rw [hlv] at hs
    obtain ⟨hv, hv1, hv2⟩ := hs
    rw [hk] at hv1
    exact hv2 b (Option.some.inj hv1).symm
  | some (.num n) =>
    rw [hlv] at hs
    obtain ⟨hv, hv1, hv2⟩ := hs
    rw [hk] at hv1
    exact hv2 b (Option.some.inj hv1).symm

theorem execHeapGo_inv (w : World) (repoRoot : Option String) (doc : VEntries)
    (d0 : HDict) (root workRoot : Nat) (hrw : root ≠ workRoot)
    (hshape : shapeOf doc d0) :
    ∀ plan (st : Store) (nx : Nat),
      (∀ n ∈ plan, segsFit doc (splitDots n.key_path) = true) →
      WorkInv d0 root workRoot st nx →
      WorkInv d0 root workRoot (execHeapGo w repoRoot workRoot plan st nx).1
        (execHeapGo w repoRoot workRoot plan st nx).2 := by
  intro plan
  induction plan with
  | nil => exact fun st nx _ hinv => hinv
  | cons node rest ih =>
    intro st nx hfit hinv
    obtain ⟨hnr, hnw, hrnx, hwnx, hroot, hD⟩ := hinv
    have hfit0 : segsFit doc (splitDots node.key_path) = true :=
      hfit node (List.mem_cons_self _ _)
    have hvs : ∀ b, hvalOfScalar (nodeValue w repoRoot
        (readOutEs st (storeSizeBound st) (lookupStore st workRoot)) node) =
        HVal.href b → b ≠ root :=
      fun b hb => absurd hb (hvalOfScalar_not_href _ b)
    have hvs2 : ∀ b, hvalOfScalar (nodeValue w repoRoot
        (readOutEs st (storeSizeBound st) (lookupStore st workRoot)) node) =
        HVal.href b → b ≠ workRoot :=
      fun b hb => absurd hb (hvalOfScalar_not_href _ b)
    have hvs3 : ∀ b, hvalOfScalar (nodeValue w repoRoot
        (readOutEs st (storeSizeBound st) (lookupStore st workRoot)) node) =
        HVal.href b → b ≠ workRoot :=
      fun b hb => absurd hb (hvalOfScalar_not_href _ b)
    obtain ⟨ha1, ha2, ha3⟩ := heapSetNested_keep root (splitDots node.key_path) st workRoot
      (hvalOfScalar (nodeValue w repoRoot
        (readOutEs st (storeSizeBound st) (lookupStore st workRoot)) node)) nx
      hnr hrnx hvs
    obtain ⟨hb1, hb2, _⟩ := heapSetNested_keep workRoot (splitDots node.key_path) st workRoot
      (hvalOfScalar (nodeValue w repoRoot
        (readOutEs st (storeSizeBound st) (lookupStore st workRoot)) node)) nx
      hnw hwnx hvs2
    have hstep : WorkInv d0 root workRoot
        (heapSetNested st workRoot (splitDots node.key_path)
          (hvalOfScalar (nodeValue w repoRoot
            (readOutEs st (storeSizeBound st) (lookupStore st workRoot)) node)) nx).1
        (heapSetNested st workRoot (splitDots node.key_path)
          (hvalOfScalar (nodeValue w repoRoot
            (readOutEs st (storeSizeBound st) (lookupStore st workRoot)) node)) nx).2 := by
      refine ⟨ha1, hb1, ha2, hb2, ?_, ?_⟩
      · rw [ha3 (fun h => hrw h.symm)]
        exact hroot
      · intro k b hk
        have hcur := hD k b hk
        have hne : splitDots node.key_path ≠ [k] := by
          intro he
          rw [he] at hfit0
          exact segsFit_single_not_href doc d0 hshape k hfit0 b hk
        exact heapSetNested_keep_href (splitDots node.key_path) st workRoot _ nx k b
          hcur hne hnw hwnx hvs3
    exact ih (heapSetNested st workRoot (splitDots node.key_path)
        (hvalOfScalar (nodeValue w repoRoot
          (readOutEs st (storeSizeBound st) (lookupStore st workRoot)) node)) nx).1
      (heapSetNested st workRoot (splitDots node.key_path)
        (hvalOfScalar (nodeValue w repoRoot
          (readOutEs st (storeSizeBound st) (lookupStore st workRoot)) node)) nx).2
      (fun n hn => hfit n (List.mem_cons_of_mem _ hn)) hstep

/-- C9: the executor copies the initial context only shallowly, so the
caller's top-level mapping object is never modified, while every key
path of two or more segments reads identically through the caller's
root and the executor's working root — the nested mappings are shared,
and the caller's raw document observes every nested write in place. -/
theorem c9_shallow_copy_aliasing (w : World) (repoRoot : Option String)
    (doc : VEntries) (plan : List Node)
    (hfit : ∀ n ∈ plan, segsFit doc (splitDots n.key_path) = true) :
    lookupStore (executeHeap w repoRoot plan doc).2.2
        (executeHeap w repoRoot plan doc).1 =
      lookupStore (loadDoc doc).2.1 (loadDoc doc).1 ∧
    (∀ segs, 2 ≤ segs.length → segsFit doc segs = true →
      heapGetD (executeHeap w repoRoot plan doc).2.2
          (executeHeap w repoRoot plan doc).1 segs =
        heapGetD (executeHeap w repoRoot plan doc).2.2
          (executeHeap w repoRoot plan doc).2.1 segs) := by
  obtain ⟨_, hsbL, hhbL⟩ := loadEntries_below doc [] 0
    (fun e he => absurd he (List.not_mem_nil e))
  set d0 := (loadEntries doc [] 0).1 with hd0
  set stL := (loadEntries doc [] 0).2.1 with hstL
  set root := (loadEntries doc [] 0).2.2 with hroot
  set workRoot := root + 1 with hworkRoot
  have hstl_ne_root : ∀ e ∈ stL, e.1 ≠ root :=
    fun e he => Nat.ne_of_lt (hsbL e he).1
  have h00 : lookupStore (stL ++ [(root, d0)]) root = d0 :=
    lookupStore_append_fresh stL root d0 hstl_ne_root
  have hst1 : (stL ++ [(root, d0)]) ++
      [(workRoot, lookupStore (stL ++ [(root, d0)]) root)] =
      (stL ++ [(root, d0)]) ++ [(workRoot, d0)] := by rw [h00]
  have hst0_ne_w : ∀ e ∈ stL ++ [(root, d0)], e.1 ≠ workRoot := by
    intro e he
    rcases List.mem_append.mp he with h1 | h1
    · have := (hsbL e h1).1
      omega
    · have he2 : e = (root, d0) := by simpa using h1
      subst he2
      show root ≠ workRoot
      omega
  have hw0 : lookupStore ((stL ++ [(root, d0)]) ++ [(workRoot, d0)]) workRoot = d0 :=
    lookupStore_append_fresh _ workRoot d0 hst0_ne_w
  have hr1 : lookupStore ((stL ++ [(root, d0)]) ++ [(workRoot, d0)]) root = d0 := by
    rw [lookupStore_append_ne _ _ _ _ (by omega)]
    exact h00
  have hnoref : ∀ c, root ≤ c →
      noRefTo ((stL ++ [(root, d0)]) ++ [(workRoot, d0)]) c := by
    intro c hc e he kv hkv b hb
    rcases List.mem_append.mp he with h1 | h1
    · rcases List.mem_append.mp h1 with h2 | h2
      · have := (hsbL e h2).2 kv hkv b hb
        omega
      · have he2 : e = (root, d0) := by simpa using h2
        subst he2
        have := hhbL kv hkv b hb
        omega
    · have he2 : e = (workRoot, d0) := by simpa using h1
      subst he2
      have := hhbL kv hkv b hb
      omega
  have hshape : shapeOf doc d0 := fun k => loadEntries_shape doc [] 0 k
  have hinv0 : WorkInv d0 root workRoot
      ((stL ++ [(root, d0)]) ++ [(workRoot, d0)]) (workRoot + 1) := by
    refine ⟨hnoref root (le_refl _), hnoref workRoot (by omega), by omega, by omega,
      hr1, ?_⟩
    intro k b hk
    rw [hw0]
    exact hk
  have hinvF := execHeapGo_inv w repoRoot doc d0 root workRoot (by omega) hshape
    plan ((stL ++ [(root, d0)]) ++ [(workRoot, d0)]) (workRoot + 1) hfit hinv0
  obtain ⟨_, _, _, _, hrootF, hDF⟩ := hinvF
  have hexec : (executeHeap w repoRoot plan doc).2.2 =
      (execHeapGo w repoRoot workRoot plan
        ((stL ++ [(root, d0)]) ++ [(workRoot, d0)]) (workRoot + 1)).1 := by
    show (execHeapGo w repoRoot workRoot plan
        ((stL ++ [(root, d0)]) ++
          [(workRoot, lookupStore (stL ++ [(root, d0)]) root)]) (workRoot + 1)).1 = _
    rw [hst1]
  have hexr : (executeHeap w repoRoot plan doc).1 = root := rfl
  have hexw : (executeHeap w repoRoot plan doc).2.1 = workRoot := rfl
  have hload1 : lookupStore (loadDoc doc).2.1 (loadDoc doc).1 = d0 := h00
  constructor
  · rw [hexec, hexr, hload1]
    exact hrootF
  · intro segs hlen hsfit
    rw [hexec, hexr, hexw]
    match segs with
    | [] => exact absurd hlen (by simp)
    | [k] => exact absurd hlen (by simp)
    | k0 :: k1 :: rest =>
      unfold segsFit at hsfit
      match hlv : lookupVE doc k0 with
      | none => rw [hlv] at hsfit; exact Bool.noConfusion hsfit
      | some (.str marked pieces) => rw [hlv] at hsfit; exact Bool.noConfusion hsfit
      | some (.num n) => rw [hlv] at hsfit; exact Bool.noConfusion hsfit
      | some (.dict sub) =>
        have hs := hshape k0
        rw [hlv] at hs
        obtain ⟨b, hb⟩ := hs
        have hbw := hDF k0 b hb
        have hgr : heapGetD (execHeapGo w repoRoot workRoot plan
            ((stL ++ [(root, d0)]) ++ [(workRoot, d0)]) (workRoot + 1)).1
            root (k0 :: k1 :: rest) =
            heapGetD (execHeapGo w repoRoot workRoot plan
              ((stL ++ [(root, d0)]) ++ [(workRoot, d0)]) (workRoot + 1)).1
              b (k1 :: rest) := by
          show (match lookupHD (lookupStore (execHeapGo w repoRoot workRoot plan
              ((stL ++ [(root, d0)]) ++ [(workRoot, d0)]) (workRoot + 1)).1 root) k0 with
            | some (.href b) => heapGetD (execHeapGo w repoRoot workRoot plan
                ((stL ++ [(root, d0)]) ++ [(workRoot, d0)]) (workRoot + 1)).1 b (k1 :: rest)
            | _ => none) = _
          rw [hrootF, hb]
        have hgw : heapGetD (execHeapGo w repoRoot workRoot plan
            ((stL ++ [(root, d0)]) ++ [(workRoot, d0)]) (workRoot + 1)).1
            workRoot (k0 :: k1 :: rest) =
            heapGetD (execHeapGo w repoRoot workRoot plan
              ((stL ++ [(root, d0)]) ++ [(workRoot, d0)]) (workRoot + 1)).1
              b (k1 :: rest) := by
          show (match lookupHD (lookupStore (execHeapGo w repoRoot workRoot plan
              ((stL ++ [(root, d0)]) ++ [(workRoot, d0)]) (workRoot + 1)).1 workRoot) k0 with
            | some (.href b) => heapGetD (execHeapGo w repoRoot workRoot plan
                ((stL ++ [(root, d0)]) ++ [(workRoot, d0)]) (workRoot + 1)).1 b (k1 :: rest)
            | _ => none) = _
          rw [hbw]
        rw [hgr, hgw]

/-- Witness for C9: executing the `cordA` plan of `cdoc` rewrites the
caller's nested entry `NS.user` in place (from the raw template text to
the rendered "hello"), visible identically through both roots. -/
theorem c9_shallow_copy_aliasing_witness :
    heapGetD (executeHeap trivialWorld none planA cdoc).2.2
        (executeHeap trivialWorld none planA cdoc).1 ["NS", "user"] =
      heapGetD (executeHeap trivialWorld none planA cdoc).2.2
        (executeHeap trivialWorld none planA cdoc).2.1 ["NS", "user"] ∧
    heapGetD (executeHeap trivialWorld none planA cdoc).2.2
        (executeHeap trivialWorld none planA cdoc).1 ["NS", "user"] =
      some (HVal.hs "hello") ∧
    heapGetD (loadDoc cdoc).2.1 (loadDoc cdoc).1 ["NS", "user"] ≠
      heapGetD (executeHeap trivialWorld none planA cdoc).2.2
        (executeHeap trivialWorld none planA cdoc).1 ["NS", "user"] :=
  ⟨(c9_shallow_copy_aliasing trivialWorld none cdoc planA (by decide)).2
      ["NS", "user"] (by decide) (by decide),
    by decide, by decide⟩
